import Mathlib

/-!
# Verification of `gmailextract/extractor.py`

A shallow embedding of the extraction-and-reconciliation engine of
`GmailImageExtractor` (src/gmailextract/extractor.py), together with proofs
of properties of its extraction pipeline (`extract`), deletion detector
(`check_deletions`) and sync engine (`sync`).

Modelling conventions:
* filenames are pairs `String × Nat` — a sanitized base name together with
  the numeric disambiguation suffix chosen by `unique_filename` (0 = none);
* the destination directory is an association list `Fs` from filenames to
  raw file contents (`open/write/close` prepends an entry);
* the remote mailbox matching the fixed search criterion `"has:attachment"`
  is a `List Message`; `search(limit, offset)` is `drop offset` then
  `take limit`; `fetch_gm_id` is a function `String → Message`;
* an attachment carries the results of its accessor methods (`type`,
  `name()`, `body()`, `sha1()`) as fields, plus `attId`, an identity for the
  Python object handle, and `removeOk`, the boolean result of `remove()`;
* callbacks and remote mutations are recorded in event traces;
* Python `dict`s (`mapping`, `to_delete`, `to_delete_subjects`,
  `attach_hashes`) are insertion-ordered association lists with the same
  update and iteration behaviour;
* a Python `KeyError` (`attach_hashes[attachment_hash]` in `sync`) makes the
  embedded `sync` return `Except.error`, carrying the trace of the events
  that had already happened when the exception propagated.
-/

namespace GmailExtract

/-- `ATTACHMENT_MIMES` from extractor.py line 6. -/
def ATTACHMENT_MIMES : List String := ["image/jpeg", "image/png", "image/gif"]

/-- A filename inside the destination directory: sanitized base name plus the
numeric disambiguation suffix appended by `unique_filename` (0 = no suffix). -/
abbrev Filename := String × Nat

/-- The destination directory: files present, newest write first. -/
abbrev Fs := List (Filename × String)

/-- `os.path.isfile(os.path.join(self.dest, name))`. -/
def isfile (fs : Fs) (f : Filename) : Bool := (fs.lookup f).isSome

/-- Largest disambiguation suffix used in `fs` for base name `name`. -/
def maxSuffix (fs : Fs) (name : String) : Nat :=
  fs.foldr (fun e m => if e.1.1 = name then max e.1.2 m else m) 0

/-- Modelled from the spec: `unique_filename` (from `gmailextract.fs`, which
is not under src/) "resolves collisions by appending a disambiguating suffix
until the name is unique within the destination directory".  Filenames being
base-name/suffix pairs, the model returns the bare name when it is free and
otherwise picks a suffix strictly larger than every suffix already present
for that base name. -/
def unique_filename (fs : Fs) (name : String) : Filename :=
  if isfile fs (name, 0) then (name, maxSuffix fs name + 1) else (name, 0)

/-- An attachment as seen through the pygmail interface: `attId` identifies
the Python object handle, the other fields are the results of the accessor
methods `type`, `name()`, `body()`, `sha1()`, and of `remove()`. -/
structure Attachment where
  attId : Nat
  type : String
  name : String
  body : String
  sha1 : String
  removeOk : Bool
deriving DecidableEq, Repr

/-- A message as seen through the pygmail interface. -/
structure Message where
  gmail_id : String
  subject : String
  attachments : List Attachment
deriving DecidableEq, Repr

/-- A `self.mapping` entry value: `(gmail_id, attachment hash, subject)`
(extractor.py line 153). -/
abbrev EntryVal := String × String × String

/-- `self.mapping`: filename ↦ `(gmail_id, hash, subject)`, insertion order. -/
abbrev Mapping := List (Filename × EntryVal)

/-- Events observable during `extract`: the `('message', first)` callback
made before each page fetch, and the `('image', att_name, disk_name)`
callback made before each file write. -/
inductive ExEvent where
  | message (first : Nat)
  | image (attName : String) (diskName : Filename)
deriving DecidableEq, Repr

/-- Accumulator of the `extract` loops: `attachment_count`, the destination
directory, `self.mapping`, and the callback trace. -/
structure ExtractAcc where
  count : Nat
  fs : Fs
  mapping : Mapping
  trace : List ExEvent
deriving DecidableEq, Repr

/-- Body of the `for att in msg.attachments()` loop (extractor.py
lines 142–154): attachments with an allowed MIME type are written to a fresh
unique filename and recorded in the mapping; others are skipped. `san`
stands for the external `sanatize_filename` helper. -/
def processAtt (san : String → String) (gid subj : String)
    (acc : ExtractAcc) (att : Attachment) : ExtractAcc :=
  if att.type ∈ ATTACHMENT_MIMES then
    let poss_fname := subj ++ " - " ++ att.name
    let fname := unique_filename acc.fs (san poss_fname)
    { count := acc.count + 1
      fs := (fname, att.body) :: acc.fs
      mapping := acc.mapping ++ [(fname, (gid, att.sha1, subj))]
      trace := acc.trace ++ [.image att.name fname] }
  else acc

/-- Processing of one message (extractor.py lines 141–154). -/
def processMsg (san : String → String) (acc : ExtractAcc) (msg : Message) :
    ExtractAcc :=
  msg.attachments.foldl (processAtt san msg.gmail_id msg.subject) acc

/-- Python truthiness of `self.limit` in `per_page = min(self.batch,
self.limit) if self.limit else self.batch` (line 127): `None` and `0` are
falsy. -/
def limitTruthy : Option Nat → Bool
  | none => false
  | some l => decide (0 < l)

/-- `self.limit > 0` (line 156); under Python 2, `None > 0` is `False`. -/
def limitPos : Option Nat → Bool
  | none => false
  | some l => decide (0 < l)

/-- `per_page = min(self.batch, self.limit) if self.limit else self.batch`
(extractor.py line 127). -/
def perPage (batch : Nat) (limit : Option Nat) : Nat :=
  if limitTruthy limit then min batch (limit.getD 0) else batch

/-- The `for msg in messages` loop over one page (extractor.py
lines 141–158): processes messages in order, incrementing `num_messages`
after each, and breaks with `hit_limit = True` as soon as
`self.limit > 0 and num_messages >= self.limit`.  Returns the accumulator,
the new `num_messages`, and `hit_limit`. -/
def processPage (san : String → String) (limit : Option Nat) :
    List Message → ExtractAcc → Nat → ExtractAcc × Nat × Bool
  | [], acc, nm => (acc, nm, false)
  | msg :: rest, acc, nm =>
    let acc' := processMsg san acc msg
    let nm' := nm + 1
    if limitPos limit && decide (limit.getD 0 ≤ nm') then (acc', nm', true)
    else processPage san limit rest acc' nm'

/-- The `while True and not hit_limit` loop (extractor.py lines 135–159):
emits the `('message', offset + 1)` callback, fetches a page
(`search` = drop/take over the mailbox), breaks on an empty page, processes
the page, and advances `offset` by `per_page`.  Returns the accumulator and
the final `num_messages`. -/
def extractLoop (san : String → String) (pp : Nat) (limit : Option Nat)
    (mailbox : List Message) (offset : Nat) (nm : Nat) (acc : ExtractAcc) :
    ExtractAcc × Nat :=
  let acc1 : ExtractAcc := { acc with trace := acc.trace ++ [.message (offset + 1)] }
  let messages := (mailbox.drop offset).take pp
  if h : messages.length = 0 then (acc1, nm)
  else
    let r := processPage san limit messages acc1 nm
    if r.2.2 then (r.1, r.2.1)
    else extractLoop san pp limit mailbox (offset + pp) r.2.1 r.1
termination_by mailbox.length - offset
decreasing_by
  simp only [messages, List.length_take, List.length_drop] at h
  omega

/-- `GmailImageExtractor.extract` (extractor.py lines 98–160) as a function
of the sanitizer, constructor arguments `batch` and `limit`, the mailbox
messages matching `"has:attachment"`, and the initial destination-directory
state.  Returns the `attachment_count` return value, the new `self.mapping`
(reset to `{}` on entry, line 133), the final directory state, the callback
trace, and the internal `num_messages` counter. -/
def extract (san : String → String) (batch : Nat) (limit : Option Nat)
    (mailbox : List Message) (fs0 : Fs) :
    Nat × Mapping × Fs × List ExEvent × Nat :=
  let r := extractLoop san (perPage batch limit) limit mailbox 0 0
    { count := 0, fs := fs0, mapping := [], trace := [] }
  (r.1.count, r.1.mapping, r.1.fs, r.1.trace, r.2)

/-- The deletion plan computed by `check_deletions` (extractor.py
lines 178–188): `self.to_delete` (gmail id ↦ pending attachment hashes, in
insertion order), `self.to_delete_subjects` (gmail id ↦ subject captured at
the first occurrence), and `self.num_deletions`. -/
structure DelPlan where
  to_delete : List (String × List String)
  to_delete_subjects : List (String × String)
  num_deletions : Nat
deriving DecidableEq, Repr

/-- `self.to_delete[gmail_id].append(a_hash)` on a key already present:
appends the hash to that key's list, keeping the dict's insertion order. -/
def appendHash : List (String × List String) → String → String →
    List (String × List String)
  | [], gid, h => [(gid, [h])]
  | (k, v) :: rest, gid, h =>
    if k = gid then (k, v ++ [h]) :: rest else (k, v) :: appendHash rest gid h

/-- Body of the `for a_name, (gmail_id, a_hash, msg_subject) in
self.mapping.items()` loop (extractor.py lines 181–187). -/
def checkDelStep (fs : Fs) (p : DelPlan) (e : Filename × EntryVal) : DelPlan :=
  let (a_name, (gid, a_hash, subj)) := e
  if isfile fs a_name then p
  else if (p.to_delete.lookup gid).isSome then
    { p with to_delete := appendHash p.to_delete gid a_hash
             num_deletions := p.num_deletions + 1 }
  else
    { to_delete := p.to_delete ++ [(gid, [a_hash])]
      to_delete_subjects := p.to_delete_subjects ++ [(gid, subj)]
      num_deletions := p.num_deletions + 1 }

/-- `GmailImageExtractor.check_deletions` (extractor.py lines 162–188) as a
pure function of the destination directory and `self.mapping`. -/
def check_deletions (fs : Fs) (mapping : Mapping) : DelPlan :=
  mapping.foldl (checkDelStep fs) ⟨[], [], 0⟩

/-- The extractor instance state that the three pipeline stages share:
constructor arguments and the reconciliation state — `self.mapping` and,
when `check_deletions` has run, the deletion-plan attributes
(`self.to_delete`, `self.to_delete_subjects`, `self.num_deletions`),
modelled as `plan : Option DelPlan` (`none` = attributes not yet set). -/
structure ExtractorState where
  batch : Nat
  limit : Option Nat
  replace : Bool
  trash_folder : String
  mapping : Mapping
  plan : Option DelPlan
deriving DecidableEq, Repr

/-- `extract` as a transition on the instance state: resets `self.mapping`
(line 133) and stores the freshly built mapping; the plan attributes are
untouched. Returns `(attachment_count, state, fs, trace, num_messages)`. -/
def extractS (san : String → String) (mailbox : List Message) (fs0 : Fs)
    (s : ExtractorState) :
    Nat × ExtractorState × Fs × List ExEvent × Nat :=
  let r := extract san s.batch s.limit mailbox fs0
  (r.1, { s with mapping := r.2.1 }, r.2.2.1, r.2.2.2.1, r.2.2.2.2)

/-- `check_deletions` as a transition on the instance state: recomputes and
stores the plan attributes and returns `self.num_deletions`. -/
def check_deletionsS (fs : Fs) (s : ExtractorState) : Nat × ExtractorState :=
  let p := check_deletions fs s.mapping
  (p.num_deletions, { s with plan := some p })

/-- Events observable during `sync`: the `('fetch', subject, num_attach)`
and `('write', subject)` callbacks, the `fetch_gm_id` call against the
mailbox, each `att.remove()` invocation (with the handle's identity and the
returned boolean), and the commit — `msg.save(trash, safe_label=label)` or
`msg.save_copy(label)`. -/
inductive SyncEvent where
  | fetchCb (subject : String) (numAttach : Nat)
  | fetchMsg (gid : String)
  | removeAtt (attId : Nat) (result : Bool)
  | writeCb (subject : String)
  | save (folder : String) (label : String)
  | saveCopy (label : String)
deriving DecidableEq, Repr

/-- `attach_hashes = {a.sha1(): a for a in msg_to_change.attachments()}`
(extractor.py line 236) followed by a key lookup: the dict comprehension
keeps the *last* attachment for a duplicated hash. -/
def attachByHash (atts : List Attachment) (h : String) : Option Attachment :=
  atts.foldl (fun acc a => if a.sha1 = h then some a else acc) none

/-- The `for attachment_hash in attch_to_remove` loop (extractor.py
lines 238–242): resolves each pending hash in the refetched message and
calls `remove()`; a missing hash raises `KeyError`
(`attach_hashes[attachment_hash]`), which aborts `sync` — modelled as
`Except.error` carrying the events already performed.  On success returns
`removed_attachments` and the extended trace. -/
def removeLoop (atts : List Attachment) :
    List String → Nat → List SyncEvent →
    Except (List SyncEvent) (Nat × List SyncEvent)
  | [], removed, tr => .ok (removed, tr)
  | h :: rest, removed, tr =>
    match attachByHash atts h with
    | none => .error tr
    | some att =>
      removeLoop atts rest (if att.removeOk then removed + 1 else removed)
        (tr ++ [.removeAtt att.attId att.removeOk])

/-- The `for gmail_id, attch_to_remove in self.to_delete.items()` loop
(extractor.py lines 231–250): per group, emits the fetch callback, refetches
the message once, removes the resolved attachments, and — when at least one
removal succeeded — emits the write callback and commits via `save` (replace
mode) or `save_copy`.  `self.to_delete_subjects[gmail_id]` is a dict lookup
whose `KeyError` is likewise modelled as `Except.error`. -/
def syncGroups (fetch : String → Message) (replace : Bool)
    (trash : String) (label : String) (subjects : List (String × String)) :
    List (String × List String) → Nat → Nat → List SyncEvent →
    Except (List SyncEvent) (Nat × Nat × List SyncEvent)
  | [], nAtt, nMsg, tr => .ok (nAtt, nMsg, tr)
  | (gid, attch_to_remove) :: rest, nAtt, nMsg, tr =>
    match subjects.lookup gid with
    | none => .error tr
    | some sbj =>
      let msg := fetch gid
      let tr1 := tr ++ [.fetchCb sbj attch_to_remove.length, .fetchMsg gid]
      match removeLoop msg.attachments attch_to_remove 0 tr1 with
      | .error tr2 => .error tr2
      | .ok (removed, tr2) =>
        if removed ≠ 0 then
          let tr3 := tr2 ++ [.writeCb sbj,
            if replace then .save trash label else .saveCopy label]
          syncGroups fetch replace trash label subjects rest
            (nAtt + removed) (nMsg + 1) tr3
        else
          syncGroups fetch replace trash label subjects rest
            (nAtt + removed) nMsg tr2

/-- `GmailImageExtractor.sync` (extractor.py lines 190–251) as a transition
on the instance state: when the plan attributes are absent
(`AttributeError` on `self.num_deletions`, line 222) it first runs
`check_deletions`; it then walks the plan groups.  Returns either
`(num_attch_removed, num_msg_changed, trace, state)` or, when a lookup
raised, the trace so far and the state. -/
def syncS (fetch : String → Message) (fs : Fs) (label : String)
    (s : ExtractorState) :
    Except (List SyncEvent × ExtractorState)
      (Nat × Nat × List SyncEvent × ExtractorState) :=
  let ps : DelPlan × ExtractorState :=
    match s.plan with
    | some p => (p, s)
    | none =>
      let p := check_deletions fs s.mapping
      (p, { s with plan := some p })
  match syncGroups fetch s.replace s.trash_folder label
      ps.1.to_delete_subjects ps.1.to_delete 0 0 [] with
  | .ok (nAtt, nMsg, tr) => .ok (nAtt, nMsg, tr, ps.2)
  | .error tr => .error (tr, ps.2)

/-! ## Derived observers of the sync engine -/

/-- Whether removing the attachment that pending hash `h` resolves to (in the
refetched message's attachment list `atts`) succeeds; `false` when the hash
does not resolve. -/
def hashRemoved (atts : List Attachment) (h : String) : Bool :=
  match attachByHash atts h with
  | some a => a.removeOk
  | none => false

/-- The `removeAtt` events produced while walking the pending hashes `hs`
against the refetched attachment list `atts` (hashes that do not resolve
produce no event — they raise instead). -/
def removeTrace (atts : List Attachment) (hs : List String) : List SyncEvent :=
  hs.filterMap (fun h => (attachByHash atts h).map
    (fun a => .removeAtt a.attId a.removeOk))

/-- `removed_attachments` for one plan group `g = (gmail_id, hashes)`: the
number of pending hashes whose resolved attachment's `remove()` succeeds. -/
def groupRemoved (fetch : String → Message) (g : String × List String) : Nat :=
  (g.2.filter (hashRemoved (fetch g.1).attachments)).length

/-- The commit event of a changed message: `save` into the trash folder in
replace mode, `save_copy` otherwise (extractor.py lines 247–250). -/
def commitEvent (replace : Bool) (trash label : String) : SyncEvent :=
  if replace then .save trash label else .saveCopy label

/-- The event trace of one plan group when all its hashes resolve. -/
def groupTrace (fetch : String → Message) (replace : Bool)
    (trash label : String) (subjects : List (String × String))
    (g : String × List String) : List SyncEvent :=
  let sbj := (subjects.lookup g.1).getD ""
  [.fetchCb sbj g.2.length, .fetchMsg g.1] ++
    removeTrace (fetch g.1).attachments g.2 ++
    (if groupRemoved fetch g ≠ 0 then
      [.writeCb sbj, commitEvent replace trash label] else [])

/-- The full event trace of a successful `sync` over the plan groups `gs`. -/
def syncTrace (fetch : String → Message) (replace : Bool)
    (trash label : String) (subjects : List (String × String))
    (gs : List (String × List String)) : List SyncEvent :=
  (gs.map (groupTrace fetch replace trash label subjects)).flatten

/-- `num_attch_removed` over the plan groups `gs`. -/
def syncRemoved (fetch : String → Message)
    (gs : List (String × List String)) : Nat :=
  (gs.map (groupRemoved fetch)).sum

/-- `num_msg_changed` over the plan groups `gs`: the number of groups with at
least one successful removal. -/
def syncChanged (fetch : String → Message)
    (gs : List (String × List String)) : Nat :=
  (gs.filter (fun g => groupRemoved fetch g != 0)).length

/-- Recognizes a successful `remove()` event. -/
def isSuccRemove : SyncEvent → Bool
  | .removeAtt _ r => r
  | _ => false

/-- Recognizes a commit event (`save` or `save_copy`). -/
def isCommit : SyncEvent → Bool
  | .save _ _ => true
  | .saveCopy _ => true
  | _ => false

/-- Number of successful `remove()` invocations in a sync trace. -/
def countSuccRemoves (tr : List SyncEvent) : Nat :=
  (tr.filter isSuccRemove).length

/-- Number of commits (`save` or `save_copy`) in a sync trace. -/
def countCommits (tr : List SyncEvent) : Nat :=
  (tr.filter isCommit).length

/-- Number of `remove()` invocations issued against the attachment handle
with identity `i` in a sync trace. -/
def countRemoveOf (i : Nat) (tr : List SyncEvent) : Nat :=
  (tr.filter (fun e => match e with
    | .removeAtt j _ => j == i
    | _ => false)).length

/-- Number of `fetch_gm_id` calls for message `gid` in a sync trace. -/
def countFetchOf (gid : String) (tr : List SyncEvent) : Nat :=
  (tr.filter (fun e => match e with
    | .fetchMsg g => g == gid
    | _ => false)).length

/-- The handle identities of the attachments that the pending hashes `hs`
resolve to in the refetched attachment list `atts`. -/
def removeIds (atts : List Attachment) (hs : List String) : List Nat :=
  hs.filterMap (fun h => (attachByHash atts h).map Attachment.attId)

/-- The mapping entries whose local file is gone and whose gmail id is
`gid` — the attachments of message `gid` pending deletion. -/
def deletedEntries (fs : Fs) (mapping : Mapping) (gid : String) :
    List (Filename × EntryVal) :=
  mapping.filter (fun e => !isfile fs e.1 && e.2.1 == gid)

/-- The mapping entries whose local file is gone (any message). -/
def deletedAll (fs : Fs) (mapping : Mapping) : List (Filename × EntryVal) :=
  mapping.filter (fun e => !isfile fs e.1)

/-- Total number of pending-deletion hashes across all groups of a plan. -/
def planHashCount (p : DelPlan) : Nat :=
  (p.to_delete.map (fun g => g.2.length)).sum

/-- Recognizes the `('message', first)` page-fetch callback. -/
def isMessageEv : ExEvent → Bool
  | .message _ => true
  | .image _ _ => false

/-- Number of qualifying (image-typed) attachments of a message. -/
def qualCount (msg : Message) : Nat :=
  (msg.attachments.filter (fun a => decide (a.type ∈ ATTACHMENT_MIMES))).length

/-- The instance state after a call to `sync`, whether it returned normally
or raised. -/
def syncOutState
    (r : Except (List SyncEvent × ExtractorState)
      (Nat × Nat × List SyncEvent × ExtractorState)) : ExtractorState :=
  match r with
  | .ok (_, _, _, s') => s'
  | .error (_, s') => s'

/-- Invariant tying `extract`'s accumulator to the mailbox `mb` and the
initial directory `fs0`: the counter equals the mapping size; the directory
is the written files (newest first, one per mapping entry, in reverse
mapping order) on top of `fs0`; mapping keys are distinct; and every mapping
entry corresponds to a qualifying attachment of a mailbox message whose
bytes are the entry's file content and whose content hash is the entry's
recorded hash. -/
def ExtractInv (mb : List Message) (fs0 : Fs) (acc : ExtractAcc) : Prop :=
  acc.count = acc.mapping.length ∧
  (∃ newfs : Fs, acc.fs = newfs ++ fs0 ∧
    newfs.map Prod.fst = (acc.mapping.map Prod.fst).reverse) ∧
  (acc.mapping.map Prod.fst).Nodup ∧
  ∀ e ∈ acc.mapping, ∃ msg ∈ mb, ∃ att ∈ msg.attachments,
    att.type ∈ ATTACHMENT_MIMES ∧
    e.2 = (msg.gmail_id, att.sha1, msg.subject) ∧
    acc.fs.lookup e.1 = some att.body

/-- The event trace of a `sync` call, whether it returned normally or
raised (the events before the exception already happened). -/
def syncOutTrace
    (r : Except (List SyncEvent × ExtractorState)
      (Nat × Nat × List SyncEvent × ExtractorState)) : List SyncEvent :=
  match r with
  | .ok (_, _, tr, _) => tr
  | .error (tr, _) => tr

/-! ## Concrete scenarios used to instantiate the theorems -/

/-- A message with two image attachments whose contents — and hence content
hashes — are identical, but whose handles are distinct (`attId` 11 and
12). -/
def wMsgD : Message :=
  ⟨"gd", "SD", [⟨11, "image/jpeg", "x.jpg", "BB", "hh", true⟩,
                ⟨12, "image/jpeg", "y.jpg", "BB", "hh", true⟩]⟩

/-- Remote fetch for the two-message scenario: message `g1` has one image
attachment whose removal succeeds, message `g2` one whose removal fails. -/
def wFetchA : String → Message := fun gid =>
  if gid = "g1" then ⟨"g1", "S1", [⟨1, "image/jpeg", "a", "B", "h1", true⟩]⟩
  else ⟨"g2", "S2", [⟨2, "image/jpeg", "b", "B", "h2", false⟩]⟩

/-- Deletion plan for the two-message scenario. -/
def wPlanA : DelPlan :=
  ⟨[("g1", ["h1"]), ("g2", ["h2"])], [("g1", "S1"), ("g2", "S2")], 2⟩

/-- Instance state holding `wPlanA`. -/
def wStateA : ExtractorState := ⟨10, none, false, "Trash", [], some wPlanA⟩

/-- The sync trace of the two-message scenario. -/
def wTraceA : List SyncEvent :=
  [.fetchCb "S1" 1, .fetchMsg "g1", .removeAtt 1 true, .writeCb "S1",
   .saveCopy "L", .fetchCb "S2" 1, .fetchMsg "g2", .removeAtt 2 false]

/-- Filesystem for the deletion-detection scenario: of the two mapped files
only `("g", 0)` is still present. -/
def wFsC : Fs := [(("g", 0), "X")]

/-- Instance state for the deletion-detection scenario: two mapping entries
for two distinct messages, no plan computed yet. -/
def wStateC : ExtractorState :=
  ⟨10, none, false, "Trash",
   [(("f", 0), ("g1", "h1", "S1")), (("g", 0), ("g2", "h2", "S2"))], none⟩

/-- Remote fetch for the one-message two-attachment scenario: message `gm`
has attachments with distinct hashes `h1`, `h2` and distinct handles 1, 2. -/
def wFetchE : String → Message := fun _ =>
  ⟨"gm", "SM", [⟨1, "image/jpeg", "x", "B1", "h1", true⟩,
                ⟨2, "image/jpeg", "y", "B2", "h2", true⟩]⟩

/-- Deletion plan with the single group `("gm", ["h1", "h2"])`. -/
def wPlanE : DelPlan := ⟨[("gm", ["h1", "h2"])], [("gm", "SM")], 2⟩

/-- Instance state holding `wPlanE`. -/
def wStateE : ExtractorState := ⟨10, none, false, "Trash", [], some wPlanE⟩

/-- The sync trace of the one-message two-attachment scenario. -/
def wTraceE : List SyncEvent :=
  [.fetchCb "SM" 2, .fetchMsg "gm", .removeAtt 1 true, .removeAtt 2 true,
   .writeCb "SM", .saveCopy "L"]

/-! ## Lemmas about the removal loop -/

theorem attachByHash_mem_core (h : String) :
    ∀ (atts : List Attachment) (acc : Option Attachment) (a : Attachment),
      atts.foldl (fun acc a => if a.sha1 = h then some a else acc) acc = some a →
      (a ∈ atts ∧ a.sha1 = h) ∨ acc = some a := by
  intro atts
  induction atts with
  | nil => intro acc a ha; exact Or.inr ha
  | cons x xs ih =>
    intro acc a ha
    simp only [List.foldl_cons] at ha
    rcases ih _ a ha with h1 | h1
    · exact Or.inl ⟨List.mem_cons_of_mem _ h1.1, h1.2⟩
    · by_cases hx : x.sha1 = h
      · rw [if_pos hx] at h1
        injection h1 with h2
        subst h2
        exact Or.inl ⟨List.mem_cons_self _ _, hx⟩
      · rw [if_neg hx] at h1
        exact Or.inr h1

/-- An attachment that `attach_hashes[h]` returns belongs to the refetched
message and has content hash `h`. -/
theorem attachByHash_mem {atts : List Attachment} {h : String}
    {a : Attachment} (ha : attachByHash atts h = some a) :
    a ∈ atts ∧ a.sha1 = h := by
  rcases attachByHash_mem_core h atts none a ha with h1 | h1
  · exact h1
  · exact absurd h1 (by simp)

theorem removeLoop_found (atts : List Attachment) :
    ∀ (hs : List String) (removed : Nat) (tr : List SyncEvent),
      (∀ h ∈ hs, (attachByHash atts h).isSome) →
      removeLoop atts hs removed tr =
        .ok (removed + (hs.filter (hashRemoved atts)).length,
             tr ++ removeTrace atts hs) := by
  intro hs
  induction hs with
  | nil => intro removed tr _; simp [removeLoop, removeTrace]
  | cons h rest ih =>
    intro removed tr hall
    have hh : (attachByHash atts h).isSome := hall h (List.mem_cons_self _ _)
    rcases Option.isSome_iff_exists.mp hh with ⟨a, ha⟩
    have hrest : ∀ x ∈ rest, (attachByHash atts x).isSome := fun x hx =>
      hall x (List.mem_cons_of_mem _ hx)
    simp only [removeLoop, ha, removeTrace, List.filterMap_cons, Option.map_some',
      List.filter_cons]
    rw [ih _ _ hrest]
    have hhr : hashRemoved atts h = a.removeOk := by simp [hashRemoved, ha]
    by_cases hr : a.removeOk
    · simp [hr, hhr, removeTrace, Nat.add_assoc, Nat.add_comm 1]
    · simp only [Bool.not_eq_true] at hr
      simp [hr, hhr, removeTrace]

theorem removeLoop_missing (atts : List Attachment) {hbad : String}
    (hb : attachByHash atts hbad = none) (hs2 : List String) :
    ∀ (hs1 : List String) (removed : Nat) (tr : List SyncEvent),
      (∀ h ∈ hs1, (attachByHash atts h).isSome) →
      removeLoop atts (hs1 ++ hbad :: hs2) removed tr =
        .error (tr ++ removeTrace atts hs1) := by
  intro hs1
  induction hs1 with
  | nil => intro removed tr _; simp [removeLoop, hb, removeTrace]
  | cons h rest ih =>
    intro removed tr hall
    have hh : (attachByHash atts h).isSome := hall h (List.mem_cons_self _ _)
    rcases Option.isSome_iff_exists.mp hh with ⟨a, ha⟩
    simp only [List.cons_append, removeLoop, ha]
    rw [List.append_eq, ih _ _ (fun x hx => hall x (List.mem_cons_of_mem _ hx))]
    simp [removeTrace, ha]

theorem removeLoop_ok_found (atts : List Attachment) :
    ∀ (hs : List String) (removed : Nat) (tr : List SyncEvent)
      (x : Nat × List SyncEvent),
      removeLoop atts hs removed tr = .ok x →
      ∀ h ∈ hs, (attachByHash atts h).isSome := by
  intro hs
  induction hs with
  | nil => intro _ _ _ _; simp
  | cons h rest ih =>
    intro removed tr x hok y hy
    rcases List.mem_cons.mp hy with rfl | hy'
    · by_contra hnone
      rw [Option.not_isSome_iff_eq_none] at hnone
      simp [removeLoop, hnone] at hok
    · rcases hcase : attachByHash atts h with _ | a
      · simp [removeLoop, hcase] at hok
      · simp only [removeLoop, hcase] at hok
        exact ih _ _ _ hok y hy'

/-! ## Lemmas about the sync group loop -/

/-- Processing `pre ++ rest` first processes `pre`; when every group of
`pre` has its subject recorded and all its pending hashes resolve in the
refetched message, the loop reaches `rest` with the counters advanced by
`pre`'s removals and changed messages and the trace extended by `pre`'s
events. -/
theorem syncGroups_append_ok (fetch : String → Message) (replace : Bool)
    (trash label : String) (subjects : List (String × String)) :
    ∀ (pre rest : List (String × List String)) (nAtt nMsg : Nat)
      (tr : List SyncEvent),
      (∀ g ∈ pre, (subjects.lookup g.1).isSome) →
      (∀ g ∈ pre, ∀ h ∈ g.2, (attachByHash (fetch g.1).attachments h).isSome) →
      syncGroups fetch replace trash label subjects (pre ++ rest) nAtt nMsg tr =
        syncGroups fetch replace trash label subjects rest
          (nAtt + syncRemoved fetch pre) (nMsg + syncChanged fetch pre)
          (tr ++ syncTrace fetch replace trash label subjects pre) := by
  intro pre
  induction pre with
  | nil =>
    intro rest nAtt nMsg tr _ _
    simp [syncRemoved, syncChanged, syncTrace]
  | cons g gs ih =>
    intro rest nAtt nMsg tr hsub hres
    obtain ⟨gid, hs⟩ := g
    rcases Option.isSome_iff_exists.mp (hsub _ (List.mem_cons_self _ _)) with
      ⟨sbj, hsbj⟩
    have hresg := hres _ (List.mem_cons_self _ _)
    simp only [List.cons_append, syncGroups, hsbj]
    rw [removeLoop_found _ _ _ _ hresg]
    have hgr : (hs.filter (hashRemoved (fetch gid).attachments)).length =
        groupRemoved fetch (gid, hs) := rfl
    by_cases hnz : groupRemoved fetch (gid, hs) = 0
    · simp only [Nat.zero_add, hgr, hnz, ne_eq, not_true_eq_false, if_neg,
        not_false_eq_true, ite_false]
      rw [List.append_eq,
        ih _ _ _ _ (fun g hg => hsub g (List.mem_cons_of_mem _ hg))
        (fun g hg => hres g (List.mem_cons_of_mem _ hg))]
      simp [syncRemoved, syncChanged, syncTrace, groupTrace, hsbj, hnz, hgr,
        Nat.add_assoc]
    · simp only [Nat.zero_add, hgr, hnz, ne_eq, not_false_eq_true, if_pos,
        ite_true]
      rw [List.append_eq,
        ih _ _ _ _ (fun g hg => hsub g (List.mem_cons_of_mem _ hg))
        (fun g hg => hres g (List.mem_cons_of_mem _ hg))]
      simp only [syncRemoved, syncChanged, syncTrace, groupTrace, List.map_cons,
        List.sum_cons, List.filter_cons, List.flatten_cons, hsbj, hnz, ne_eq,
        not_false_eq_true, bne_iff_ne, if_pos, Option.getD_some]
      congr 1
      · exact Nat.add_assoc _ _ _
      · simp [List.length_cons]
        omega
      · simp [commitEvent, List.append_assoc]

/-- A successful run of the group loop means every group's subject lookup and
every pending hash lookup succeeded. -/
theorem syncGroups_ok_inv (fetch : String → Message) (replace : Bool)
    (trash label : String) (subjects : List (String × String)) :
    ∀ (gs : List (String × List String)) (nAtt nMsg : Nat)
      (tr : List SyncEvent) (x : Nat × Nat × List SyncEvent),
      syncGroups fetch replace trash label subjects gs nAtt nMsg tr = .ok x →
      (∀ g ∈ gs, (subjects.lookup g.1).isSome) ∧
      (∀ g ∈ gs, ∀ h ∈ g.2, (attachByHash (fetch g.1).attachments h).isSome) := by
  intro gs
  induction gs with
  | nil => intro nAtt nMsg tr x _; simp
  | cons g rest ih =>
    intro nAtt nMsg tr x hok
    obtain ⟨gid, hs⟩ := g
    cases hsbj : subjects.lookup gid with
    | none => simp [syncGroups, hsbj] at hok
    | some sbj =>
      simp only [syncGroups, hsbj] at hok
      cases hrl : removeLoop (fetch gid).attachments hs 0
          (tr ++ [.fetchCb sbj hs.length, .fetchMsg gid]) with
      | error t => rw [hrl] at hok; simp at hok
      | ok p =>
        rw [hrl] at hok
        have hfound := removeLoop_ok_found _ _ _ _ _ hrl
        obtain ⟨removed, t⟩ := p
        dsimp only at hok
        by_cases hnz : removed ≠ 0
        · rw [if_pos hnz] at hok
          rcases ih _ _ _ _ hok with ⟨h1, h2⟩
          refine ⟨fun g hg => ?_, fun g hg => ?_⟩ <;>
            rcases List.mem_cons.mp hg with rfl | hg'
          · simp [hsbj]
          · exact h1 g hg'
          · exact hfound
          · exact h2 g hg'
        · rw [if_neg hnz] at hok
          rcases ih _ _ _ _ hok with ⟨h1, h2⟩
          refine ⟨fun g hg => ?_, fun g hg => ?_⟩ <;>
            rcases List.mem_cons.mp hg with rfl | hg'
          · simp [hsbj]
          · exact h1 g hg'
          · exact hfound
          · exact h2 g hg'

/-! ## Counting events in sync traces -/

theorem countSuccRemoves_append (t1 t2 : List SyncEvent) :
    countSuccRemoves (t1 ++ t2) = countSuccRemoves t1 + countSuccRemoves t2 := by
  simp [countSuccRemoves, List.filter_append]

theorem countCommits_append (t1 t2 : List SyncEvent) :
    countCommits (t1 ++ t2) = countCommits t1 + countCommits t2 := by
  simp [countCommits, List.filter_append]

theorem countSuccRemoves_removeTrace (atts : List Attachment) :
    ∀ hs : List String,
      countSuccRemoves (removeTrace atts hs) =
        (hs.filter (hashRemoved atts)).length := by
  intro hs
  induction hs with
  | nil => simp [countSuccRemoves, removeTrace]
  | cons h rest ih =>
    rcases hcase : attachByHash atts h with _ | a <;>
      simp only [removeTrace, List.filterMap_cons, hcase, Option.map_none',
        Option.map_some', List.filter_cons, hashRemoved]
    · simpa [hashRemoved, hcase] using ih
    · by_cases hr : a.removeOk <;>
        simp_all [countSuccRemoves, removeTrace, isSuccRemove, hashRemoved, hcase]

theorem countCommits_removeTrace (atts : List Attachment) (hs : List String) :
    countCommits (removeTrace atts hs) = 0 := by
  simp only [countCommits, List.length_eq_zero, List.filter_eq_nil_iff]
  intro e he
  simp only [removeTrace, List.mem_filterMap] at he
  rcases he with ⟨h, _, he⟩
  rcases hcase : attachByHash atts h with _ | a <;> rw [hcase] at he
  · simp at he
  · simp only [Option.map_some', Option.some.injEq] at he
    subst he
    simp [isCommit]

theorem countSuccRemoves_commit (replace : Bool) (trash label sbj : String) :
    countSuccRemoves [SyncEvent.writeCb sbj, commitEvent replace trash label] = 0 := by
  by_cases hr : replace <;> simp [countSuccRemoves, commitEvent, hr, isSuccRemove]

theorem countCommits_commit (replace : Bool) (trash label sbj : String) :
    countCommits [SyncEvent.writeCb sbj, commitEvent replace trash label] = 1 := by
  by_cases hr : replace <;> simp [countCommits, commitEvent, hr, isCommit]

theorem countSuccRemoves_groupTrace (fetch : String → Message) (replace : Bool)
    (trash label : String) (subjects : List (String × String))
    (g : String × List String) :
    countSuccRemoves (groupTrace fetch replace trash label subjects g) =
      groupRemoved fetch g := by
  simp only [groupTrace]
  rw [countSuccRemoves_append, countSuccRemoves_append,
    countSuccRemoves_removeTrace]
  by_cases hnz : groupRemoved fetch g ≠ 0
  · rw [if_pos hnz, countSuccRemoves_commit]
    simp [countSuccRemoves, isSuccRemove, groupRemoved]
  · rw [if_neg hnz]
    simp [countSuccRemoves, isSuccRemove, groupRemoved]

theorem countCommits_groupTrace (fetch : String → Message) (replace : Bool)
    (trash label : String) (subjects : List (String × String))
    (g : String × List String) :
    countCommits (groupTrace fetch replace trash label subjects g) =
      if groupRemoved fetch g ≠ 0 then 1 else 0 := by
  simp only [groupTrace]
  rw [countCommits_append, countCommits_append, countCommits_removeTrace]
  by_cases hnz : groupRemoved fetch g ≠ 0
  · rw [if_pos hnz, countCommits_commit, if_pos hnz]
    simp [countCommits, isCommit]
  · rw [if_neg hnz, if_neg hnz]
    simp [countCommits, isCommit]

theorem syncTrace_cons (fetch : String → Message) (replace : Bool)
    (trash label : String) (subjects : List (String × String))
    (g : String × List String) (rest : List (String × List String)) :
    syncTrace fetch replace trash label subjects (g :: rest) =
      groupTrace fetch replace trash label subjects g ++
        syncTrace fetch replace trash label subjects rest := by
  simp [syncTrace]

theorem countSuccRemoves_syncTrace (fetch : String → Message) (replace : Bool)
    (trash label : String) (subjects : List (String × String)) :
    ∀ gs : List (String × List String),
      countSuccRemoves (syncTrace fetch replace trash label subjects gs) =
        syncRemoved fetch gs := by
  intro gs
  induction gs with
  | nil => rfl
  | cons g rest ih =>
    rw [syncTrace_cons, countSuccRemoves_append, countSuccRemoves_groupTrace, ih]
    simp [syncRemoved]

theorem countCommits_syncTrace (fetch : String → Message) (replace : Bool)
    (trash label : String) (subjects : List (String × String)) :
    ∀ gs : List (String × List String),
      countCommits (syncTrace fetch replace trash label subjects gs) =
        syncChanged fetch gs := by
  intro gs
  induction gs with
  | nil => rfl
  | cons g rest ih =>
    rw [syncTrace_cons, countCommits_append, countCommits_groupTrace, ih]
    by_cases hnz : groupRemoved fetch g = 0 <;>
      simp [hnz, syncChanged, List.filter_cons] <;> omega

/-! ## Association-list lemmas -/

theorem lookup_append {α β : Type} [BEq α] [LawfulBEq α]
    (l1 l2 : List (α × β)) (k : α) :
    (l1 ++ l2).lookup k = ((l1.lookup k).or (l2.lookup k)) := by
  induction l1 with
  | nil => simp [List.lookup]
  | cons e l ih =>
    obtain ⟨a, b⟩ := e
    by_cases he : k == a <;> simp [List.lookup, he, ih]

theorem lookup_eq_none_iff {α β : Type} [BEq α] [LawfulBEq α]
    (l : List (α × β)) (k : α) :
    l.lookup k = none ↔ k ∉ l.map Prod.fst := by
  induction l with
  | nil => simp [List.lookup]
  | cons e l ih =>
    obtain ⟨a, b⟩ := e
    by_cases he : k == a
    · simp only [List.lookup, he, List.map_cons]
      have he' : k = a := by simpa using he
      simp [he']
    · simp only [List.lookup, he, List.map_cons]
      have he' : ¬k = a := by simpa using he
      simp [he', ih]

theorem mem_of_lookup_isSome {α β : Type} [BEq α] [LawfulBEq α]
    {l : List (α × β)} {k : α}
    (h : (l.lookup k).isSome) : k ∈ l.map Prod.fst := by
  by_contra hmem
  rw [← lookup_eq_none_iff] at hmem
  rw [hmem] at h
  simp at h

/-! ## Lemmas about appendHash -/

theorem appendHash_lookup_self (gid h : String) :
    ∀ l : List (String × List String),
      (appendHash l gid h).lookup gid = some (((l.lookup gid).getD []) ++ [h]) := by
  intro l
  induction l with
  | nil => simp [appendHash, List.lookup]
  | cons e l ih =>
    obtain ⟨k, v⟩ := e
    by_cases hk : k = gid
    · subst hk
      simp [appendHash, List.lookup]
    · have hk' : (gid == k) = false := by simp [Ne.symm hk]
      simp [appendHash, hk, List.lookup, hk', ih]

theorem appendHash_lookup_other (gid h g' : String) (hne : g' ≠ gid) :
    ∀ l : List (String × List String),
      (appendHash l gid h).lookup g' = l.lookup g' := by
  have hbe : (g' == gid) = false := by simp [hne]
  intro l
  induction l with
  | nil => simp [appendHash, List.lookup, hbe]
  | cons e l ih =>
    obtain ⟨k, v⟩ := e
    by_cases hk : k = gid
    · subst hk
      simp [appendHash, List.lookup, hbe, ih]
    · simp [appendHash, hk, List.lookup, ih]

theorem appendHash_keys (gid h : String) :
    ∀ l : List (String × List String),
      (l.lookup gid).isSome →
      (appendHash l gid h).map Prod.fst = l.map Prod.fst := by
  intro l
  induction l with
  | nil => simp [List.lookup]
  | cons e l ih =>
    obtain ⟨k, v⟩ := e
    intro hs
    by_cases hk : k = gid
    · subst hk
      simp [appendHash]
    · have hk' : (gid == k) = false := by simp [Ne.symm hk]
      simp only [List.lookup, hk', cond_false] at hs
      simp [appendHash, hk, ih hs]

theorem appendHash_sum (gid h : String) :
    ∀ l : List (String × List String),
      ((appendHash l gid h).map (fun g => g.2.length)).sum =
        (l.map (fun g => g.2.length)).sum + 1 := by
  intro l
  induction l with
  | nil => simp [appendHash]
  | cons e l ih =>
    obtain ⟨k, v⟩ := e
    by_cases hk : k = gid <;> simp [appendHash, hk, ih] <;> omega

/-! ## Lemmas about the check_deletions fold -/

theorem checkDelStep_num (fs : Fs) (p : DelPlan) (e : Filename × EntryVal) :
    (checkDelStep fs p e).num_deletions =
      p.num_deletions + (if isfile fs e.1 then 0 else 1) := by
  obtain ⟨an, g, ah, sj⟩ := e
  by_cases hf : isfile fs an
  · simp [checkDelStep, hf]
  · by_cases hs : (p.to_delete.lookup g).isSome <;>
      simp [checkDelStep, hf, hs]

theorem checkDelStep_hashCount (fs : Fs) (p : DelPlan)
    (e : Filename × EntryVal) :
    planHashCount (checkDelStep fs p e) =
      planHashCount p + (if isfile fs e.1 then 0 else 1) := by
  obtain ⟨an, g, ah, sj⟩ := e
  by_cases hf : isfile fs an
  · simp [checkDelStep, hf]
  · by_cases hs : (p.to_delete.lookup g).isSome <;>
      simp [checkDelStep, hf, hs, planHashCount, appendHash_sum]

theorem checkDel_counts (fs : Fs) :
    ∀ (l : Mapping) (p : DelPlan),
      (l.foldl (checkDelStep fs) p).num_deletions =
        p.num_deletions + (deletedAll fs l).length ∧
      planHashCount (l.foldl (checkDelStep fs) p) =
        planHashCount p + (deletedAll fs l).length := by
  intro l
  induction l with
  | nil => intro p; simp [deletedAll]
  | cons e l ih =>
    intro p
    obtain ⟨h1, h2⟩ := ih (checkDelStep fs p e)
    simp only [List.foldl_cons]
    rw [h1, h2, checkDelStep_num, checkDelStep_hashCount]
    by_cases hf : isfile fs e.1 <;>
      simp [deletedAll, List.filter_cons, hf] <;> omega

theorem checkDel_lookup_some (fs : Fs) (gid : String) :
    ∀ (l : Mapping) (p : DelPlan) (v : List String),
      p.to_delete.lookup gid = some v →
      (l.foldl (checkDelStep fs) p).to_delete.lookup gid =
        some (v ++ (deletedEntries fs l gid).map (fun e => e.2.2.1)) := by
  intro l
  induction l with
  | nil => intro p v hv; simp [deletedEntries, hv]
  | cons e l ih =>
    intro p v hv
    obtain ⟨an, g, ah, sj⟩ := e
    simp only [List.foldl_cons]
    by_cases hf : isfile fs an
    · have hstep : checkDelStep fs p (an, (g, ah, sj)) = p := by
        simp [checkDelStep, hf]
      rw [hstep, ih p v hv]
      simp [deletedEntries, List.filter_cons, hf]
    · by_cases hg : g = gid
      · subst hg
        have hs : (p.to_delete.lookup g).isSome := by simp [hv]
        have hstep : checkDelStep fs p (an, (g, ah, sj)) =
            { p with to_delete := appendHash p.to_delete g ah,
                     num_deletions := p.num_deletions + 1 } := by
          simp [checkDelStep, hf, hs]
        have hlook : (appendHash p.to_delete g ah).lookup g = some (v ++ [ah]) := by
          rw [appendHash_lookup_self]
          simp [hv]
        rw [hstep, ih _ _ hlook]
        simp [deletedEntries, List.filter_cons, hf, List.append_assoc]
      · have hne : gid ≠ g := fun hh => hg hh.symm
        have hbe : (g == gid) = false := by simp [hg]
        by_cases hs : (p.to_delete.lookup g).isSome
        · have hstep : checkDelStep fs p (an, (g, ah, sj)) =
              { p with to_delete := appendHash p.to_delete g ah,
                       num_deletions := p.num_deletions + 1 } := by
            simp [checkDelStep, hf, hs]
          have hv2 : (appendHash p.to_delete g ah).lookup gid = some v := by
            rw [appendHash_lookup_other g ah gid hne]
            exact hv
          rw [hstep, ih _ v hv2]
          simp [deletedEntries, List.filter_cons, hf, hbe]
        · have hstep : checkDelStep fs p (an, (g, ah, sj)) =
              { to_delete := p.to_delete ++ [(g, [ah])],
                to_delete_subjects := p.to_delete_subjects ++ [(g, sj)],
                num_deletions := p.num_deletions + 1 } := by
            simp [checkDelStep, hf, hs]
          have hv2 : (p.to_delete ++ [(g, [ah])]).lookup gid = some v := by
            rw [lookup_append, hv]
            rfl
          rw [hstep, ih _ v hv2]
          simp [deletedEntries, List.filter_cons, hf, hbe]

theorem checkDel_lookup_none (fs : Fs) (gid : String) :
    ∀ (l : Mapping) (p : DelPlan),
      p.to_delete.lookup gid = none →
      (l.foldl (checkDelStep fs) p).to_delete.lookup gid =
        (if deletedEntries fs l gid = [] then none
         else some ((deletedEntries fs l gid).map (fun e => e.2.2.1))) := by
  intro l
  induction l with
  | nil => intro p hv; simp [deletedEntries, hv]
  | cons e l ih =>
    intro p hv
    obtain ⟨an, g, ah, sj⟩ := e
    simp only [List.foldl_cons]
    by_cases hf : isfile fs an
    · have hstep : checkDelStep fs p (an, (g, ah, sj)) = p := by
        simp [checkDelStep, hf]
      have hde : deletedEntries fs ((an, (g, ah, sj)) :: l) gid =
          deletedEntries fs l gid := by
        simp [deletedEntries, List.filter_cons, hf]
      rw [hde, hstep, ih p hv]
    · by_cases hg : g = gid
      · subst hg
        have hs : ¬(p.to_delete.lookup g).isSome := by simp [hv]
        have hstep : checkDelStep fs p (an, (g, ah, sj)) =
            { to_delete := p.to_delete ++ [(g, [ah])],
              to_delete_subjects := p.to_delete_subjects ++ [(g, sj)],
              num_deletions := p.num_deletions + 1 } := by
          simp [checkDelStep, hf, hs]
        have hlook : (p.to_delete ++ [(g, [ah])]).lookup g = some [ah] := by
          rw [lookup_append, hv]
          simp [List.lookup]
        have hde : deletedEntries fs ((an, (g, ah, sj)) :: l) g =
            (an, (g, ah, sj)) :: deletedEntries fs l g := by
          simp [deletedEntries, List.filter_cons, hf]
        rw [hde, hstep, checkDel_lookup_some fs g l _ [ah] hlook]
        simp
      · have hne : gid ≠ g := fun hh => hg hh.symm
        have hbe : (g == gid) = false := by simp [hg]
        have hbe2 : (gid == g) = false := by simp [hne]
        have hde : deletedEntries fs ((an, (g, ah, sj)) :: l) gid =
            deletedEntries fs l gid := by
          simp [deletedEntries, List.filter_cons, hbe]
        by_cases hs : (p.to_delete.lookup g).isSome
        · have hstep : checkDelStep fs p (an, (g, ah, sj)) =
              { p with to_delete := appendHash p.to_delete g ah,
                       num_deletions := p.num_deletions + 1 } := by
            simp [checkDelStep, hf, hs]
          have hv2 : (appendHash p.to_delete g ah).lookup gid = none := by
            rw [appendHash_lookup_other g ah gid hne]
            exact hv
          rw [hde, hstep, ih _ hv2]
        · have hstep : checkDelStep fs p (an, (g, ah, sj)) =
              { to_delete := p.to_delete ++ [(g, [ah])],
                to_delete_subjects := p.to_delete_subjects ++ [(g, sj)],
                num_deletions := p.num_deletions + 1 } := by
            simp [checkDelStep, hf, hs]
          have hv2 : (p.to_delete ++ [(g, [ah])]).lookup gid = none := by
            rw [lookup_append, hv]
            simp [List.lookup, hbe2]
          rw [hde, hstep, ih _ hv2]

theorem checkDel_keys_nodup (fs : Fs) :
    ∀ (l : Mapping) (p : DelPlan),
      (p.to_delete.map Prod.fst).Nodup →
      ((l.foldl (checkDelStep fs) p).to_delete.map Prod.fst).Nodup := by
  intro l
  induction l with
  | nil => intro p hnd; exact hnd
  | cons e l ih =>
    intro p hnd
    obtain ⟨an, g, ah, sj⟩ := e
    simp only [List.foldl_cons]
    by_cases hf : isfile fs an
    · have hstep : checkDelStep fs p (an, (g, ah, sj)) = p := by
        simp [checkDelStep, hf]
      rw [hstep]
      exact ih p hnd
    · by_cases hs : (p.to_delete.lookup g).isSome
      · have hstep : checkDelStep fs p (an, (g, ah, sj)) =
            { p with to_delete := appendHash p.to_delete g ah,
                     num_deletions := p.num_deletions + 1 } := by
          simp [checkDelStep, hf, hs]
        rw [hstep]
        refine ih _ ?_
        simpa [appendHash_keys g ah p.to_delete hs] using hnd
      · have hstep : checkDelStep fs p (an, (g, ah, sj)) =
            { to_delete := p.to_delete ++ [(g, [ah])],
              to_delete_subjects := p.to_delete_subjects ++ [(g, sj)],
              num_deletions := p.num_deletions + 1 } := by
          simp [checkDelStep, hf, hs]
        rw [hstep]
        refine ih _ ?_
        have hnone : p.to_delete.lookup g = none :=
          Option.not_isSome_iff_eq_none.mp hs
        have hmem : g ∉ p.to_delete.map Prod.fst :=
          (lookup_eq_none_iff _ _).mp hnone
        simp [List.nodup_append, hnd, hmem]

theorem checkDel_subjects_some (fs : Fs) (gid : String) :
    ∀ (l : Mapping) (p : DelPlan) (v : String),
      p.to_delete_subjects.lookup gid = some v →
      (l.foldl (checkDelStep fs) p).to_delete_subjects.lookup gid = some v := by
  intro l
  induction l with
  | nil => intro p v hv; exact hv
  | cons e l ih =>
    intro p v hv
    obtain ⟨an, g, ah, sj⟩ := e
    simp only [List.foldl_cons]
    by_cases hf : isfile fs an
    · have hstep : checkDelStep fs p (an, (g, ah, sj)) = p := by
        simp [checkDelStep, hf]
      rw [hstep]
      exact ih p v hv
    · by_cases hs : (p.to_delete.lookup g).isSome
      · have hstep : checkDelStep fs p (an, (g, ah, sj)) =
            { p with to_delete := appendHash p.to_delete g ah,
                     num_deletions := p.num_deletions + 1 } := by
          simp [checkDelStep, hf, hs]
        rw [hstep]
        exact ih _ v hv
      · have hstep : checkDelStep fs p (an, (g, ah, sj)) =
            { to_delete := p.to_delete ++ [(g, [ah])],
              to_delete_subjects := p.to_delete_subjects ++ [(g, sj)],
              num_deletions := p.num_deletions + 1 } := by
          simp [checkDelStep, hf, hs]
        rw [hstep]
        refine ih _ v ?_
        rw [lookup_append, hv]
        rfl

theorem checkDel_subjects_none (fs : Fs) (gid : String) :
    ∀ (l : Mapping) (p : DelPlan),
      p.to_delete_subjects.lookup gid = none →
      p.to_delete.lookup gid = none →
      (l.foldl (checkDelStep fs) p).to_delete_subjects.lookup gid =
        (deletedEntries fs l gid).head?.map (fun e => e.2.2.2) := by
  intro l
  induction l with
  | nil => intro p hv hv2; simp [deletedEntries, hv]
  | cons e l ih =>
    intro p hv hv2
    obtain ⟨an, g, ah, sj⟩ := e
    simp only [List.foldl_cons]
    by_cases hf : isfile fs an
    · have hstep : checkDelStep fs p (an, (g, ah, sj)) = p := by
        simp [checkDelStep, hf]
      rw [hstep, ih p hv hv2]
      simp [deletedEntries, List.filter_cons, hf]
    · by_cases hg : g = gid
      · subst hg
        have hs : ¬(p.to_delete.lookup g).isSome := by simp [hv2]
        have hstep : checkDelStep fs p (an, (g, ah, sj)) =
            { to_delete := p.to_delete ++ [(g, [ah])],
              to_delete_subjects := p.to_delete_subjects ++ [(g, sj)],
              num_deletions := p.num_deletions + 1 } := by
          simp [checkDelStep, hf, hs]
        have hlook : (p.to_delete_subjects ++ [(g, sj)]).lookup g = some sj := by
          rw [lookup_append, hv]
          simp [List.lookup]
        rw [hstep, checkDel_subjects_some fs g l _ sj hlook]
        simp [deletedEntries, List.filter_cons, hf]
      · have hne : gid ≠ g := fun hh => hg hh.symm
        have hbe : (g == gid) = false := by simp [hg]
        have hbe2 : (gid == g) = false := by simp [hne]
        by_cases hs : (p.to_delete.lookup g).isSome
        · have hstep : checkDelStep fs p (an, (g, ah, sj)) =
              { p with to_delete := appendHash p.to_delete g ah,
                       num_deletions := p.num_deletions + 1 } := by
            simp [checkDelStep, hf, hs]
          have hv3 : (appendHash p.to_delete g ah).lookup gid = none := by
            rw [appendHash_lookup_other g ah gid hne]
            exact hv2
          have hih := ih ⟨appendHash p.to_delete g ah, p.to_delete_subjects,
            p.num_deletions + 1⟩ hv hv3
          rw [hstep, hih]
          simp [deletedEntries, List.filter_cons, hf, hbe]
        · have hstep : checkDelStep fs p (an, (g, ah, sj)) =
              { to_delete := p.to_delete ++ [(g, [ah])],
                to_delete_subjects := p.to_delete_subjects ++ [(g, sj)],
                num_deletions := p.num_deletions + 1 } := by
            simp [checkDelStep, hf, hs]
          have hv3 : (p.to_delete_subjects ++ [(g, sj)]).lookup gid = none := by
            rw [lookup_append, hv]
            simp [List.lookup, hbe2]
          have hv4 : (p.to_delete ++ [(g, [ah])]).lookup gid = none := by
            rw [lookup_append, hv2]
            simp [List.lookup, hbe2]
          rw [hstep, ih _ hv3 hv4]
          simp [deletedEntries, List.filter_cons, hf, hbe]

/-- A normal return of `sync` is fully characterized: the two counters are
`syncRemoved`/`syncChanged` over the cached plan's groups, the trace is
`syncTrace`, and the state is unchanged. -/
theorem syncS_ok_spec (fetch : String → Message) (fs : Fs) (label : String)
    (s : ExtractorState) (p : DelPlan) (a m : Nat) (tr : List SyncEvent)
    (s' : ExtractorState) (hplan : s.plan = some p)
    (hok : syncS fetch fs label s = .ok (a, m, tr, s')) :
    a = syncRemoved fetch p.to_delete ∧
    m = syncChanged fetch p.to_delete ∧
    tr = syncTrace fetch s.replace s.trash_folder label
      p.to_delete_subjects p.to_delete ∧
    s' = s := by
  simp only [syncS, hplan] at hok
  cases hsg : syncGroups fetch s.replace s.trash_folder label
      p.to_delete_subjects p.to_delete 0 0 [] with
  | error t => rw [hsg] at hok; simp at hok
  | ok x =>
    rw [hsg] at hok
    obtain ⟨a0, m0, t0⟩ := x
    simp only [Except.ok.injEq, Prod.mk.injEq] at hok
    obtain ⟨ha, hm, ht, hs'⟩ := hok
    rcases syncGroups_ok_inv _ _ _ _ _ _ _ _ _ _ hsg with ⟨hsub, hres⟩
    have hspec := syncGroups_append_ok fetch s.replace s.trash_folder label
      p.to_delete_subjects p.to_delete [] 0 0 [] hsub hres
    simp only [List.append_nil, syncGroups, Nat.zero_add, List.nil_append]
      at hspec
    rw [hspec] at hsg
    simp only [Except.ok.injEq, Prod.mk.injEq] at hsg
    obtain ⟨h1, h2, h3⟩ := hsg
    exact ⟨ha ▸ h1.symm, hm ▸ h2.symm, ht ▸ h3.symm, hs'.symm⟩

/-! ## C1: removal counting -/

/-- C1. For every deletion plan processed by `sync`, a normal return
`(attachmentsRemoved, messagesChanged)` satisfies: `attachmentsRemoved` is
the number of attachments whose `remove()` actually returned true (the sum
over plan groups of successful removals, and also the number of successful
remove events in the trace); `messagesChanged` is the number of distinct
plan messages with at least one successful removal; and the number of
commits (`save`/`save_copy`) in the trace equals `messagesChanged`, so a
message all of whose pending removals fail contributes 0 to both counters
and is never committed — the trace is exactly `syncTrace`, whose group
traces contain a commit only when the group had a successful removal. -/
theorem C1_sync_removal_counting (fetch : String → Message) (fs : Fs)
    (label : String) (s : ExtractorState) (p : DelPlan)
    (a m : Nat) (tr : List SyncEvent) (s' : ExtractorState)
    (hplan : s.plan = some p)
    (hok : syncS fetch fs label s = .ok (a, m, tr, s')) :
    a = syncRemoved fetch p.to_delete ∧
    m = syncChanged fetch p.to_delete ∧
    countSuccRemoves tr = a ∧
    countCommits tr = m ∧
    tr = syncTrace fetch s.replace s.trash_folder label
      p.to_delete_subjects p.to_delete := by
  obtain ⟨h1, h2, h3, _⟩ :=
    syncS_ok_spec fetch fs label s p a m tr s' hplan hok
  subst h1 h2 h3
  exact ⟨rfl, rfl, countSuccRemoves_syncTrace _ _ _ _ _ _,
    countCommits_syncTrace _ _ _ _ _ _, rfl⟩

/-- Witness for C1: in the two-message scenario, `sync` returns `(1, 1)` —
`g1`'s removal succeeds and is committed, `g2`'s removal fails, contributing
0 to both counters and no commit. -/
theorem C1_sync_removal_counting_witness :
    (1 : Nat) = syncRemoved wFetchA wPlanA.to_delete ∧
    (1 : Nat) = syncChanged wFetchA wPlanA.to_delete ∧
    countSuccRemoves wTraceA = 1 ∧
    countCommits wTraceA = 1 ∧
    wTraceA = syncTrace wFetchA wStateA.replace wStateA.trash_folder "L"
      wPlanA.to_delete_subjects wPlanA.to_delete :=
  C1_sync_removal_counting wFetchA [] "L" wStateA wPlanA 1 1 wTraceA wStateA
    rfl rfl

/-! ## Counting fetches in sync traces -/

theorem countFetchOf_append (gid : String) (t1 t2 : List SyncEvent) :
    countFetchOf gid (t1 ++ t2) = countFetchOf gid t1 + countFetchOf gid t2 := by
  simp [countFetchOf, List.filter_append]

theorem countFetchOf_removeTrace (gid : String) (atts : List Attachment)
    (hs : List String) :
    countFetchOf gid (removeTrace atts hs) = 0 := by
  simp only [countFetchOf, List.length_eq_zero, List.filter_eq_nil_iff]
  intro e he
  simp only [removeTrace, List.mem_filterMap] at he
  rcases he with ⟨h, _, he⟩
  rcases hcase : attachByHash atts h with _ | a <;> rw [hcase] at he
  · simp at he
  · simp only [Option.map_some', Option.some.injEq] at he
    subst he
    simp

theorem countFetchOf_groupTrace (gid : String) (fetch : String → Message)
    (replace : Bool) (trash label : String)
    (subjects : List (String × String)) (g : String × List String) :
    countFetchOf gid (groupTrace fetch replace trash label subjects g) =
      if g.1 == gid then 1 else 0 := by
  simp only [groupTrace]
  rw [countFetchOf_append, countFetchOf_append, countFetchOf_removeTrace]
  have htail : countFetchOf gid
      (if groupRemoved fetch g ≠ 0 then
        [SyncEvent.writeCb ((subjects.lookup g.1).getD ""),
         commitEvent replace trash label] else []) = 0 := by
    by_cases hnz : groupRemoved fetch g ≠ 0 <;>
      by_cases hr : replace <;>
      simp [hnz, hr, countFetchOf, commitEvent]
  rw [htail]
  by_cases hk : g.1 == gid <;> simp [countFetchOf, hk]

theorem countFetchOf_syncTrace_zero (gid : String) (fetch : String → Message)
    (replace : Bool) (trash label : String)
    (subjects : List (String × String)) :
    ∀ gs : List (String × List String), gid ∉ gs.map Prod.fst →
      countFetchOf gid (syncTrace fetch replace trash label subjects gs) = 0 := by
  intro gs
  induction gs with
  | nil => intro _; rfl
  | cons g rest ih =>
    intro hmem
    rw [syncTrace_cons, countFetchOf_append, countFetchOf_groupTrace]
    have h1 : g.1 ≠ gid := fun hh => hmem (by simp [hh.symm])
    have h2 : gid ∉ rest.map Prod.fst := fun hh => hmem (by simp [hh])
    simp [h1, ih h2]

theorem countFetchOf_syncTrace_one (gid : String) (fetch : String → Message)
    (replace : Bool) (trash label : String)
    (subjects : List (String × String)) :
    ∀ gs : List (String × List String), (gs.map Prod.fst).Nodup →
      gid ∈ gs.map Prod.fst →
      countFetchOf gid (syncTrace fetch replace trash label subjects gs) = 1 := by
  intro gs
  induction gs with
  | nil => intro _ hmem; simp at hmem
  | cons g rest ih =>
    intro hnd hmem
    rw [syncTrace_cons, countFetchOf_append, countFetchOf_groupTrace]
    simp only [List.map_cons, List.nodup_cons] at hnd
    rw [List.map_cons] at hmem
    by_cases hk : g.1 = gid
    · have h2 : gid ∉ rest.map Prod.fst := by
        rw [← hk]
        exact hnd.1
      rw [countFetchOf_syncTrace_zero gid fetch replace trash label subjects
        rest h2]
      simp [hk]
    · have hmem' : gid ∈ rest.map Prod.fst := by
        rcases List.mem_cons.mp hmem with h | h
        · exact absurd h.symm hk
        · exact h
      have hbe : (g.1 == gid) = false := by simp [hk]
      simp [hbe, ih hnd.2 hmem']

/-! ## C3: deletion detection is a pure diff -/

/-- C3. For a mapping in which exactly `K` entries' files are absent from
the destination directory, `check_deletions` returns `K`, the total number
of hashes across all groups of the produced plan is `K`, and calling it a
second time with no filesystem change in between returns the same count and
leaves the state with the identical plan. -/
theorem C3_check_deletions_diff (fs : Fs) (s : ExtractorState) (K : Nat)
    (hK : (deletedAll fs s.mapping).length = K) :
    (check_deletionsS fs s).1 = K ∧
    planHashCount (check_deletions fs s.mapping) = K ∧
    check_deletionsS fs (check_deletionsS fs s).2 = check_deletionsS fs s := by
  obtain ⟨h1, h2⟩ := checkDel_counts fs s.mapping ⟨[], [], 0⟩
  refine ⟨?_, ?_, rfl⟩
  · simp only [check_deletionsS, check_deletions]
    rw [h1, ← hK]
    simp
  · simp only [check_deletions]
    rw [h2, ← hK]
    simp [planHashCount]

/-- Witness for C3: with one of the two mapped files missing,
`check_deletions` returns 1, the plan holds 1 hash, and a repeated call is
identical. -/
theorem C3_check_deletions_diff_witness :
    (check_deletionsS wFsC wStateC).1 = 1 ∧
    planHashCount (check_deletions wFsC wStateC.mapping) = 1 ∧
    check_deletionsS wFsC (check_deletionsS wFsC wStateC).2 =
      check_deletionsS wFsC wStateC :=
  C3_check_deletions_diff wFsC wStateC 1 rfl

/-! ## C4: grouping by message id and single fetch -/

/-- C4. When two or more locally deleted files carry the same gmail id,
the deletion plan contains exactly one entry for that id (the id is in the
plan and the plan's ids are duplicate-free), that entry's hash sequence is
the hashes of all those files in mapping order, the subject is captured from
the first such entry, and any successful `sync` run over this plan fetches
that message exactly once. -/
theorem C4_grouping_single_fetch (fs : Fs) (mapping : Mapping) (gid : String)
    (es : List (Filename × EntryVal))
    (hes : deletedEntries fs mapping gid = es) (hlen : 2 ≤ es.length) :
    (check_deletions fs mapping).to_delete.lookup gid =
      some (es.map (fun e => e.2.2.1)) ∧
    ((check_deletions fs mapping).to_delete.map Prod.fst).Nodup ∧
    gid ∈ (check_deletions fs mapping).to_delete.map Prod.fst ∧
    (check_deletions fs mapping).to_delete_subjects.lookup gid =
      es.head?.map (fun e => e.2.2.2) ∧
    (∀ (fetch : String → Message) (fs2 : Fs) (label : String)
       (s : ExtractorState) (a m : Nat) (tr : List SyncEvent)
       (s' : ExtractorState),
       s.plan = some (check_deletions fs mapping) →
       syncS fetch fs2 label s = .ok (a, m, tr, s') →
       countFetchOf gid tr = 1) := by
  have hne : es ≠ [] := by
    intro h
    rw [h] at hlen
    simp at hlen
  have hcd : check_deletions fs mapping =
      mapping.foldl (checkDelStep fs) ⟨[], [], 0⟩ := rfl
  have hlook := checkDel_lookup_none fs gid mapping ⟨[], [], 0⟩ rfl
  rw [hes, if_neg hne] at hlook
  have hnd := checkDel_keys_nodup fs mapping ⟨[], [], 0⟩ (by simp)
  have hmem : gid ∈ (mapping.foldl (checkDelStep fs)
      (⟨[], [], 0⟩ : DelPlan)).to_delete.map Prod.fst := by
    apply mem_of_lookup_isSome
    rw [hlook]
    rfl
  have hsubj := checkDel_subjects_none fs gid mapping ⟨[], [], 0⟩ rfl rfl
  rw [hes] at hsubj
  refine ⟨by rw [hcd]; exact hlook, by rw [hcd]; exact hnd,
    by rw [hcd]; exact hmem, by rw [hcd]; exact hsubj, ?_⟩
  intro fetch fs2 label s a m tr s' hplan hok
  obtain ⟨_, _, htr, _⟩ :=
    syncS_ok_spec fetch fs2 label s _ a m tr s' hplan hok
  rw [htr]
  exact countFetchOf_syncTrace_one gid fetch s.replace s.trash_folder label
    (check_deletions fs mapping).to_delete_subjects
    (check_deletions fs mapping).to_delete (by rw [hcd]; exact hnd)
    (by rw [hcd]; exact hmem)

/-- Witness for C4: two deleted files of message `gm` produce the single
plan group `("gm", ["h1", "h2"])` with subject `"SM"`, and a successful sync
over it fetches `gm` exactly once. -/
theorem C4_grouping_single_fetch_witness :
    (check_deletions [] [(("a", 0), ("gm", "h1", "SM")),
        (("b", 0), ("gm", "h2", "SM"))]).to_delete.lookup "gm" =
      some ["h1", "h2"] ∧
    countFetchOf "gm"
      [.fetchCb "SM" 2, .fetchMsg "gm", .removeAtt 1 true, .removeAtt 2 true,
       .writeCb "SM", .saveCopy "L"] = 1 := by
  have hmain := C4_grouping_single_fetch []
    [(("a", 0), ("gm", "h1", "SM")), (("b", 0), ("gm", "h2", "SM"))] "gm"
    [(("a", 0), ("gm", "h1", "SM")), (("b", 0), ("gm", "h2", "SM"))]
    rfl (by decide)
  refine ⟨hmain.1, ?_⟩
  exact hmain.2.2.2.2
    (fun _ => ⟨"gm", "SM", [⟨1, "image/jpeg", "x", "B1", "h1", true⟩,
      ⟨2, "image/jpeg", "y", "B2", "h2", true⟩]⟩)
    [] "L"
    ⟨10, none, false, "Trash",
      [(("a", 0), ("gm", "h1", "SM")), (("b", 0), ("gm", "h2", "SM"))],
      some (check_deletions [] [(("a", 0), ("gm", "h1", "SM")),
        (("b", 0), ("gm", "h2", "SM"))])⟩
    2 1
    [.fetchCb "SM" 2, .fetchMsg "gm", .removeAtt 1 true, .removeAtt 2 true,
     .writeCb "SM", .saveCopy "L"]
    ⟨10, none, false, "Trash",
      [(("a", 0), ("gm", "h1", "SM")), (("b", 0), ("gm", "h2", "SM"))],
      some (check_deletions [] [(("a", 0), ("gm", "h1", "SM")),
        (("b", 0), ("gm", "h2", "SM"))])⟩
    rfl rfl

/-! ## Lemmas about the extract loops -/

/-- With no limit, a page is processed in full and never sets `hit_limit`. -/
theorem processPage_no_limit (san : String → String) :
    ∀ (msgs : List Message) (acc : ExtractAcc) (nm : Nat),
      processPage san none msgs acc nm =
        (msgs.foldl (processMsg san) acc, nm + msgs.length, false) := by
  intro msgs
  induction msgs with
  | nil => intro acc nm; simp [processPage]
  | cons m rest ih =>
    intro acc nm
    simp only [processPage, limitPos, Bool.false_and, Bool.false_eq_true,
      if_false, List.foldl_cons, ih]
    simp [Nat.add_assoc, Nat.add_comm 1]

/-- With limit `L > 0` and a page holding exactly the remaining `L - nm`
messages, the page loop processes every message of the page and stops with
`hit_limit` right after the last one — never mid-message. -/
theorem processPage_hits (san : String → String) (L : Nat) (hL : 0 < L) :
    ∀ (msgs : List Message) (nm : Nat) (acc : ExtractAcc),
      msgs ≠ [] → nm + msgs.length = L →
      processPage san (some L) msgs acc nm =
        (msgs.foldl (processMsg san) acc, L, true) := by
  intro msgs
  induction msgs with
  | nil => intro nm acc hne _; exact absurd rfl hne
  | cons m rest ih =>
    intro nm acc _ hlen
    cases rest with
    | nil =>
      have hnm : nm + 1 = L := by simpa using hlen
      simp [processPage, limitPos, hL, hnm]
    | cons m2 rest2 =>
      rw [List.length_cons, List.length_cons] at hlen
      have hlt : nm + 1 < L := by omega
      have hcb : (limitPos (some L) &&
          decide ((some L).getD 0 ≤ nm + 1)) ≠ true := by
        intro hc
        simp only [limitPos, Option.getD, Bool.and_eq_true,
          decide_eq_true_eq] at hc
        omega
      have hstep : processPage san (some L) (m :: m2 :: rest2) acc nm =
          processPage san (some L) (m2 :: rest2) (processMsg san acc m)
            (nm + 1) := by
        simp only [processPage]
        rw [if_neg hcb]
      rw [hstep, ih (nm + 1) (processMsg san acc m) (by simp) (by
        rw [List.length_cons]
        omega)]
      simp

/-- Processing a list of attachments only appends `image` events. -/
theorem foldAtts_trace (san : String → String) (gid subj : String) :
    ∀ (atts : List Attachment) (acc : ExtractAcc),
      ∃ t : List ExEvent,
        (atts.foldl (processAtt san gid subj) acc).trace = acc.trace ++ t ∧
        ∀ e ∈ t, isMessageEv e = false := by
  intro atts
  induction atts with
  | nil => intro acc; exact ⟨[], by simp, by simp⟩
  | cons a atts ih =>
    intro acc
    rcases ih (processAtt san gid subj acc a) with ⟨t, ht, hall⟩
    by_cases hq : a.type ∈ ATTACHMENT_MIMES
    · refine ⟨ExEvent.image a.name
        (unique_filename acc.fs (san (subj ++ " - " ++ a.name))) :: t, ?_, ?_⟩
      · rw [List.foldl_cons, ht]
        simp [processAtt, hq]
      · intro e he
        rcases List.mem_cons.mp he with rfl | he'
        · rfl
        · exact hall e he'
    · refine ⟨t, ?_, hall⟩
      rw [List.foldl_cons, ht]
      simp [processAtt, hq]

/-- Processing a list of messages only appends `image` events. -/
theorem foldMsgs_trace (san : String → String) :
    ∀ (msgs : List Message) (acc : ExtractAcc),
      ∃ t : List ExEvent,
        (msgs.foldl (processMsg san) acc).trace = acc.trace ++ t ∧
        ∀ e ∈ t, isMessageEv e = false := by
  intro msgs
  induction msgs with
  | nil => intro acc; exact ⟨[], by simp, by simp⟩
  | cons m msgs ih =>
    intro acc
    rcases foldAtts_trace san m.gmail_id m.subject m.attachments acc with
      ⟨t1, ht1, hall1⟩
    rcases ih (processMsg san acc m) with ⟨t2, ht2, hall2⟩
    refine ⟨t1 ++ t2, ?_, ?_⟩
    · rw [List.foldl_cons, ht2, processMsg, ht1, List.append_assoc]
    · intro e he
      rcases List.mem_append.mp he with he' | he'
      · exact hall1 e he'
      · exact hall2 e he'

/-! ## Freshness of unique filenames -/

theorem isfile_iff_mem (fs : Fs) (f : Filename) :
    isfile fs f = true ↔ f ∈ fs.map Prod.fst := by
  constructor
  · intro h
    exact mem_of_lookup_isSome h
  · intro h
    by_contra hc
    rw [isfile, Option.not_isSome_iff_eq_none, lookup_eq_none_iff] at hc
    exact hc h

theorem mem_keys_le_maxSuffix (name : String) :
    ∀ (fs : Fs) (k : Nat), (name, k) ∈ fs.map Prod.fst →
      k ≤ maxSuffix fs name := by
  intro fs
  induction fs with
  | nil => simp
  | cons e fs ih =>
    intro k hk
    simp only [List.map_cons, List.mem_cons] at hk
    simp only [maxSuffix, List.foldr_cons]
    rcases hk with hk | hk
    · rw [← hk]
      simp only [if_pos rfl]
      exact Nat.le_max_left _ _
    · have hle := ih k hk
      by_cases hc : e.1.1 = name
      · rw [if_pos hc]
        exact Nat.le_trans hle (Nat.le_max_right _ _)
      · rw [if_neg hc]
        exact hle

/-- The filename chosen by `unique_filename` is not yet present in the
destination directory. -/
theorem unique_filename_fresh (fs : Fs) (name : String) :
    isfile fs (unique_filename fs name) = false := by
  unfold unique_filename
  by_cases h0 : isfile fs (name, 0)
  · rw [if_pos h0]
    by_contra hc
    simp only [Bool.not_eq_false] at hc
    have hmem := (isfile_iff_mem _ _).mp hc
    have := mem_keys_le_maxSuffix name fs _ hmem
    omega
  · rw [if_neg h0]
    simpa using h0

/-! ## The extraction invariant is preserved -/

theorem processAtt_inv (san : String → String) (mb : List Message) (fs0 : Fs)
    (msg : Message) (hmsg : msg ∈ mb) (att : Attachment)
    (hatt : att ∈ msg.attachments) (acc : ExtractAcc)
    (hinv : ExtractInv mb fs0 acc) :
    ExtractInv mb fs0 (processAtt san msg.gmail_id msg.subject acc att) := by
  obtain ⟨hcount, ⟨newfs, hfs, hkeys⟩, hnd, hent⟩ := hinv
  by_cases hq : att.type ∈ ATTACHMENT_MIMES
  · have hfresh : isfile acc.fs
        (unique_filename acc.fs (san (msg.subject ++ " - " ++ att.name))) =
        false := unique_filename_fresh _ _
    have hfmem : unique_filename acc.fs (san (msg.subject ++ " - " ++ att.name))
        ∉ acc.fs.map Prod.fst := by
      intro hc
      rw [← isfile_iff_mem] at hc
      rw [hc] at hfresh
      simp at hfresh
    have hmapsub : ∀ k ∈ acc.mapping.map Prod.fst, k ∈ acc.fs.map Prod.fst := by
      intro k hk
      rw [hfs, List.map_append]
      apply List.mem_append_left
      rw [hkeys]
      exact List.mem_reverse.mpr hk
    have hfnm : unique_filename acc.fs (san (msg.subject ++ " - " ++ att.name))
        ∉ acc.mapping.map Prod.fst := fun hc => hfmem (hmapsub _ hc)
    refine ⟨?_, ⟨(unique_filename acc.fs
        (san (msg.subject ++ " - " ++ att.name)), att.body) :: newfs, ?_, ?_⟩,
      ?_, ?_⟩
    · simp [processAtt, hq, hcount]
    · simp [processAtt, hq, hfs]
    · simp [processAtt, hq, hkeys, List.map_append, List.reverse_append]
    · simp [processAtt, hq, List.nodup_append, hnd, hfnm]
    · intro e he
      simp only [processAtt, hq, if_pos, List.mem_append, List.mem_singleton]
        at he
      rcases he with he | he
      · obtain ⟨msg', hm', att', ha', hq', hv', hlook⟩ := hent e he
        refine ⟨msg', hm', att', ha', hq', hv', ?_⟩
        have hne : (e.1 == unique_filename acc.fs
            (san (msg.subject ++ " - " ++ att.name))) = false := by
          have hkmem : e.1 ∈ acc.mapping.map Prod.fst :=
            List.mem_map_of_mem Prod.fst he
          simp only [beq_eq_false_iff_ne, ne_eq]
          intro hc
          exact hfnm (hc ▸ hkmem)
        simp only [processAtt, hq, if_pos]
        simpa [List.lookup, hne] using hlook
      · subst he
        refine ⟨msg, hmsg, att, hatt, hq, rfl, ?_⟩
        simp [processAtt, hq, List.lookup]
  · simpa [processAtt, hq] using ⟨hcount, ⟨newfs, hfs, hkeys⟩, hnd, hent⟩

theorem foldAtts_inv (san : String → String) (mb : List Message) (fs0 : Fs)
    (msg : Message) (hmsg : msg ∈ mb) :
    ∀ (l : List Attachment), (∀ a ∈ l, a ∈ msg.attachments) →
      ∀ acc : ExtractAcc, ExtractInv mb fs0 acc →
      ExtractInv mb fs0
        (l.foldl (processAtt san msg.gmail_id msg.subject) acc) := by
  intro l
  induction l with
  | nil => intro _ acc hinv; exact hinv
  | cons a l ih =>
    intro hsub acc hinv
    rw [List.foldl_cons]
    exact ih (fun x hx => hsub x (List.mem_cons_of_mem _ hx)) _
      (processAtt_inv san mb fs0 msg hmsg a (hsub a (List.mem_cons_self _ _))
        acc hinv)

theorem processMsg_inv (san : String → String) (mb : List Message) (fs0 : Fs)
    (msg : Message) (hmsg : msg ∈ mb) (acc : ExtractAcc)
    (hinv : ExtractInv mb fs0 acc) :
    ExtractInv mb fs0 (processMsg san acc msg) :=
  foldAtts_inv san mb fs0 msg hmsg msg.attachments (fun _ ha => ha) acc hinv

theorem processPage_inv (san : String → String) (mb : List Message) (fs0 : Fs)
    (limit : Option Nat) :
    ∀ (msgs : List Message), (∀ m ∈ msgs, m ∈ mb) →
      ∀ (acc : ExtractAcc) (nm : Nat), ExtractInv mb fs0 acc →
      ExtractInv mb fs0 (processPage san limit msgs acc nm).1 := by
  intro msgs
  induction msgs with
  | nil => intro _ acc nm hinv; exact hinv
  | cons m rest ih =>
    intro hsub acc nm hinv
    have hstep : ExtractInv mb fs0 (processMsg san acc m) :=
      processMsg_inv san mb fs0 m (hsub m (List.mem_cons_self _ _)) acc hinv
    by_cases hc : (limitPos limit && decide (limit.getD 0 ≤ nm + 1)) = true
    · simp only [processPage, if_pos hc]
      exact hstep
    · simp only [processPage, if_neg hc]
      exact ih (fun x hx => hsub x (List.mem_cons_of_mem _ hx)) _ _ hstep

theorem extractLoop_inv (san : String → String) (pp : Nat)
    (limit : Option Nat) (mb : List Message) (fs0 : Fs) :
    ∀ (offset nm : Nat) (acc : ExtractAcc), ExtractInv mb fs0 acc →
      ExtractInv mb fs0 (extractLoop san pp limit mb offset nm acc).1 := by
  have H : ∀ (k offset nm : Nat) (acc : ExtractAcc),
      mb.length - offset ≤ k → ExtractInv mb fs0 acc →
      ExtractInv mb fs0 (extractLoop san pp limit mb offset nm acc).1 := by
    intro k
    induction k with
    | zero =>
      intro offset nm acc hle hinv
      rw [extractLoop]
      have hz : ((mb.drop offset).take pp).length = 0 := by
        simp only [List.length_take, List.length_drop]
        omega
      rw [dif_pos hz]
      exact hinv
    | succ k ih =>
      intro offset nm acc hle hinv
      rw [extractLoop]
      by_cases hz : ((mb.drop offset).take pp).length = 0
      · rw [dif_pos hz]
        exact hinv
      · rw [dif_neg hz]
        have hsub : ∀ m ∈ (mb.drop offset).take pp, m ∈ mb := fun m hm =>
          List.mem_of_mem_drop (List.mem_of_mem_take hm)
        have hpage : ExtractInv mb fs0
            (processPage san limit ((mb.drop offset).take pp)
              { acc with trace := acc.trace ++ [ExEvent.message (offset + 1)] }
              nm).1 :=
          processPage_inv san mb fs0 limit _ hsub _ nm hinv
        by_cases hhit : (processPage san limit ((mb.drop offset).take pp)
            { acc with trace := acc.trace ++ [ExEvent.message (offset + 1)] }
            nm).2.2
        · simp only [hhit, if_true]
          exact hpage
        · simp only [hhit, Bool.false_eq_true, if_false]
          refine ih (offset + pp) _ _ ?_ hpage
          simp only [List.length_take, List.length_drop] at hz
          omega
  intro offset nm acc hinv
  exact H (mb.length - offset) offset nm acc (Nat.le_refl _) hinv

/-! ## Counting extracted attachments -/

theorem foldAtts_count (san : String → String) (gid subj : String) :
    ∀ (l : List Attachment) (acc : ExtractAcc),
      (l.foldl (processAtt san gid subj) acc).count =
        acc.count +
          (l.filter (fun a => decide (a.type ∈ ATTACHMENT_MIMES))).length := by
  intro l
  induction l with
  | nil => intro acc; simp
  | cons a l ih =>
    intro acc
    rw [List.foldl_cons, ih]
    by_cases hq : a.type ∈ ATTACHMENT_MIMES <;>
      simp [processAtt, hq, List.filter_cons] <;> omega

theorem processMsg_count (san : String → String) (acc : ExtractAcc)
    (m : Message) :
    (processMsg san acc m).count = acc.count + qualCount m :=
  foldAtts_count san m.gmail_id m.subject m.attachments acc

theorem foldMsgs_count (san : String → String) :
    ∀ (msgs : List Message) (acc : ExtractAcc),
      (msgs.foldl (processMsg san) acc).count =
        acc.count + (msgs.map qualCount).sum := by
  intro msgs
  induction msgs with
  | nil => intro acc; simp
  | cons m msgs ih =>
    intro acc
    rw [List.foldl_cons, ih, processMsg_count]
    simp [Nat.add_assoc]

theorem extractLoop_count (san : String → String) (pp : Nat) (hpp : 0 < pp)
    (mb : List Message) :
    ∀ (offset nm : Nat) (acc : ExtractAcc),
      (extractLoop san pp none mb offset nm acc).1.count =
        acc.count + ((mb.drop offset).map qualCount).sum := by
  have H : ∀ (k offset nm : Nat) (acc : ExtractAcc),
      mb.length - offset ≤ k →
      (extractLoop san pp none mb offset nm acc).1.count =
        acc.count + ((mb.drop offset).map qualCount).sum := by
    intro k
    induction k with
    | zero =>
      intro offset nm acc hle
      rw [extractLoop]
      have hdrop : mb.drop offset = [] := by
        rw [List.drop_eq_nil_iff_le]
        omega
      have hz : ((mb.drop offset).take pp).length = 0 := by
        rw [hdrop]
        simp
      rw [dif_pos hz]
      simp [hdrop]
    | succ k ih =>
      intro offset nm acc hle
      rw [extractLoop]
      by_cases hz : ((mb.drop offset).take pp).length = 0
      · rw [dif_pos hz]
        simp only [List.length_take, List.length_drop] at hz
        have hdrop : mb.drop offset = [] := by
          rw [List.drop_eq_nil_iff_le]
          omega
        simp [hdrop]
      · rw [dif_neg hz]
        rw [processPage_no_limit]
        simp only [Bool.false_eq_true, if_false]
        rw [ih (offset + pp) _ _ (by
          simp only [List.length_take, List.length_drop] at hz
          omega)]
        rw [foldMsgs_count]
        have hsplit2 : List.map qualCount (List.drop offset mb) =
            List.map qualCount (List.take pp (List.drop offset mb)) ++
              List.map qualCount (List.drop (offset + pp) mb) := by
          rw [← List.map_append]
          congr 1
          rw [← List.drop_drop]
          exact (List.take_append_drop pp _).symm
        conv_rhs => rw [hsplit2]
        rw [List.sum_append]
        simp [Nat.add_assoc]
  intro offset nm acc
  exact H (mb.length - offset) offset nm acc (Nat.le_refl _)

/-! ## C2: mapping completeness after extraction -/

/-- C2. With no message limit and a positive batch size, `extract` returns
the number of qualifying (image-typed) attachments of the whole mailbox;
the mapping it builds has exactly that many entries, keyed by distinct
filenames; the final directory consists of exactly the files named by the
mapping (newest first) on top of the initial directory — an entry for every
written file and for no other file; and every entry corresponds to a
qualifying attachment of some mailbox message such that the file's content
is that attachment's bytes and the entry's recorded hash is that same
attachment's content hash. -/
theorem C2_extract_mapping_complete (san : String → String) (B : Nat)
    (mailbox : List Message) (fs0 : Fs) (hB : 0 < B) :
    (extract san B none mailbox fs0).1 = (mailbox.map qualCount).sum ∧
    (extract san B none mailbox fs0).1 =
      (extract san B none mailbox fs0).2.1.length ∧
    ((extract san B none mailbox fs0).2.1.map Prod.fst).Nodup ∧
    (extract san B none mailbox fs0).2.2.1.map Prod.fst =
      ((extract san B none mailbox fs0).2.1.map Prod.fst).reverse ++
        fs0.map Prod.fst ∧
    (∀ e ∈ (extract san B none mailbox fs0).2.1,
      ∃ msg ∈ mailbox, ∃ att ∈ msg.attachments,
        att.type ∈ ATTACHMENT_MIMES ∧
        e.2 = (msg.gmail_id, att.sha1, msg.subject) ∧
        (extract san B none mailbox fs0).2.2.1.lookup e.1 = some att.body) := by
  have hpp : perPage B none = B := by simp [perPage, limitTruthy]
  have hinv0 : ExtractInv mailbox fs0
      { count := 0, fs := fs0, mapping := [], trace := [] } :=
    ⟨rfl, ⟨[], by simp, by simp⟩, by simp, by simp⟩
  have hinv := extractLoop_inv san (perPage B none) none mailbox fs0 0 0
    { count := 0, fs := fs0, mapping := [], trace := [] } hinv0
  have hcnt := extractLoop_count san (perPage B none) (by rwa [hpp]) mailbox
    0 0 { count := 0, fs := fs0, mapping := [], trace := [] }
  obtain ⟨hcount, ⟨newfs, hfs, hkeys⟩, hnd, hent⟩ := hinv
  refine ⟨?_, ?_, hnd, ?_, hent⟩
  · simpa [extract] using hcnt
  · simpa [extract] using hcount
  · show (extractLoop san (perPage B none) none mailbox 0 0
        { count := 0, fs := fs0, mapping := [], trace := [] }).1.fs.map
        Prod.fst = _
    rw [hfs, List.map_append, hkeys]
    rfl

/-- Witness for C2: extracting the duplicate-content two-attachment message
with batch 10 and no limit. -/
theorem C2_extract_mapping_complete_witness :
    (extract id 10 none [wMsgD] []).1 = ([wMsgD].map qualCount).sum ∧
    (extract id 10 none [wMsgD] []).1 =
      (extract id 10 none [wMsgD] []).2.1.length ∧
    ((extract id 10 none [wMsgD] []).2.1.map Prod.fst).Nodup ∧
    (extract id 10 none [wMsgD] []).2.2.1.map Prod.fst =
      ((extract id 10 none [wMsgD] []).2.1.map Prod.fst).reverse ++
        ([] : Fs).map Prod.fst ∧
    (∀ e ∈ (extract id 10 none [wMsgD] []).2.1,
      ∃ msg ∈ [wMsgD], ∃ att ∈ msg.attachments,
        att.type ∈ ATTACHMENT_MIMES ∧
        e.2 = (msg.gmail_id, att.sha1, msg.subject) ∧
        (extract id 10 none [wMsgD] []).2.2.1.lookup e.1 = some att.body) :=
  C2_extract_mapping_complete id 10 [wMsgD] [] (by decide)

/-! ## C10: every extraction pass replaces the mapping wholesale -/

theorem check_deletions_all_present (fs : Fs) :
    ∀ (l : Mapping) (p : DelPlan),
      (∀ f ∈ l.map Prod.fst, isfile fs f = true) →
      l.foldl (checkDelStep fs) p = p := by
  intro l
  induction l with
  | nil => intro p _; rfl
  | cons e l ih =>
    intro p hall
    rw [List.foldl_cons]
    have hf : isfile fs e.1 = true := hall e.1 (by simp)
    have hstep : checkDelStep fs p e = p := by
      obtain ⟨an, g, ah, sj⟩ := e
      simp only [List.map_cons] at hf
      simp [checkDelStep, hf]
    rw [hstep]
    exact ih p (fun f hf2 => hall f (List.mem_cons_of_mem _ hf2))

/-- C10. `extract` resets the mapping on entry: the mapping after a call
depends only on the constructor arguments, the mailbox and the directory —
two states differing arbitrarily (in particular in any mapping left by an
earlier extraction pass) end up with the same mapping; and a detection run
after the call in which every newly mapped file is still on disk reports 0,
so files written only by a previous pass are never reported. -/
theorem C10_extract_resets_mapping (san : String → String)
    (mb : List Message) (fs0 : Fs) (s1 s2 : ExtractorState)
    (hb : s1.batch = s2.batch) (hl : s1.limit = s2.limit) :
    (extractS san mb fs0 s1).2.1.mapping =
      (extractS san mb fs0 s2).2.1.mapping ∧
    (∀ fs2 : Fs,
      (∀ f ∈ (extractS san mb fs0 s1).2.1.mapping.map Prod.fst,
        isfile fs2 f = true) →
      (check_deletionsS fs2 (extractS san mb fs0 s1).2.1).1 = 0) := by
  constructor
  · simp [extractS, hb, hl]
  · intro fs2 hall
    have h := check_deletions_all_present fs2
      (extractS san mb fs0 s1).2.1.mapping ⟨[], [], 0⟩ hall
    simp only [check_deletionsS, check_deletions]
    rw [h]

/-- Witness for C10: two states with different leftover mappings produce the
same fresh mapping, and detection over a directory still holding the two
newly written files reports 0 deletions. -/
theorem C10_extract_resets_mapping_witness :
    (extractS id [wMsgD] []
        ⟨10, none, false, "Trash", [(("old", 0), ("gX", "hX", "SX"))],
          none⟩).2.1.mapping =
      (extractS id [wMsgD] [] ⟨10, none, false, "T2", [], none⟩).2.1.mapping ∧
    (check_deletionsS [(("SD - x.jpg", 0), "BB"), (("SD - y.jpg", 0), "BB")]
      (extractS id [wMsgD] []
        ⟨10, none, false, "Trash", [(("old", 0), ("gX", "hX", "SX"))],
          none⟩).2.1).1 = 0 :=
  ⟨(C10_extract_resets_mapping id [wMsgD] []
      ⟨10, none, false, "Trash", [(("old", 0), ("gX", "hX", "SX"))], none⟩
      ⟨10, none, false, "T2", [], none⟩ rfl rfl).1,
   (C10_extract_resets_mapping id [wMsgD] []
      ⟨10, none, false, "Trash", [(("old", 0), ("gX", "hX", "SX"))], none⟩
      ⟨10, none, false, "T2", [], none⟩ rfl rfl).2
     [(("SD - x.jpg", 0), "BB"), (("SD - y.jpg", 0), "BB")]
     (by
       have hmap : (extractS id [wMsgD] []
           ⟨10, none, false, "Trash", [(("old", 0), ("gX", "hX", "SX"))],
             none⟩).2.1.mapping =
           [(("SD - x.jpg", 0), ("gd", "hh", "SD")),
            (("SD - y.jpg", 0), ("gd", "hh", "SD"))] := by
         simp [extractS, extract, extractLoop, processPage, processMsg,
           processAtt, unique_filename, isfile, maxSuffix, perPage,
           limitTruthy, limitPos, ATTACHMENT_MIMES, wMsgD]
       rw [hmap]
       decide)⟩

/-! ## C5: pagination with a limit smaller than the batch size -/

/-- C5. For `0 < L < B` and a mailbox with at least `L` matching messages,
`extract` uses page size `min(B, L) = L`, performs exactly one page fetch
(the trace holds exactly one `message` event), processes exactly the first
`L` messages — each in full, since the limit is only checked after a
message's attachments are done — and its result is the fold of message
processing over those `L` messages. -/
theorem C5_limit_pagination (san : String → String) (B L : Nat)
    (mailbox : List Message) (fs0 : Fs)
    (hL : 0 < L) (hLB : L < B) (hmb : L ≤ mailbox.length) :
    perPage B (some L) = L ∧
    extract san B (some L) mailbox fs0 =
      (((mailbox.take L).foldl (processMsg san)
          { count := 0, fs := fs0, mapping := [], trace := [.message 1] }).count,
       ((mailbox.take L).foldl (processMsg san)
          { count := 0, fs := fs0, mapping := [], trace := [.message 1] }).mapping,
       ((mailbox.take L).foldl (processMsg san)
          { count := 0, fs := fs0, mapping := [], trace := [.message 1] }).fs,
       ((mailbox.take L).foldl (processMsg san)
          { count := 0, fs := fs0, mapping := [], trace := [.message 1] }).trace,
       L) ∧
    ((extract san B (some L) mailbox fs0).2.2.2.1.filter isMessageEv).length = 1 := by
  have hpp : perPage B (some L) = L := by
    simp [perPage, limitTruthy, hL, Nat.min_eq_right (Nat.le_of_lt hLB)]
  have hlen : (mailbox.take L).length = L := by
    rw [List.length_take]
    omega
  have hne : mailbox.take L ≠ [] := by
    intro hcon
    rw [hcon] at hlen
    simp at hlen
    omega
  have hmain : extract san B (some L) mailbox fs0 =
      (((mailbox.take L).foldl (processMsg san)
          { count := 0, fs := fs0, mapping := [], trace := [.message 1] }).count,
       ((mailbox.take L).foldl (processMsg san)
          { count := 0, fs := fs0, mapping := [], trace := [.message 1] }).mapping,
       ((mailbox.take L).foldl (processMsg san)
          { count := 0, fs := fs0, mapping := [], trace := [.message 1] }).fs,
       ((mailbox.take L).foldl (processMsg san)
          { count := 0, fs := fs0, mapping := [], trace := [.message 1] }).trace,
       L) := by
    simp only [extract, hpp]
    rw [extractLoop]
    simp only [List.drop_zero, hlen, hL.ne', dite_false, List.nil_append,
      Nat.zero_add]
    rw [processPage_hits san L hL (mailbox.take L) 0
      { count := 0, fs := fs0, mapping := [],
        trace := [ExEvent.message 1] } hne (by simp [hlen])]
    simp
  refine ⟨hpp, hmain, ?_⟩
  rw [hmain]
  rcases foldMsgs_trace san (mailbox.take L)
      { count := 0, fs := fs0, mapping := [], trace := [.message 1] } with
    ⟨t, ht, hall⟩
  simp only [ht]
  rw [List.filter_append]
  have hnil : t.filter isMessageEv = [] := by
    rw [List.filter_eq_nil_iff]
    intro e he
    simp [hall e he]
  rw [hnil]
  rfl

/-- Witness for C5: with limit 1, batch 10 and a two-message mailbox, the
page size is 1, one page is fetched and only the first message is
processed. -/
theorem C5_limit_pagination_witness :
    perPage 10 (some 1) = 1 ∧
    extract id 10 (some 1) [wMsgD, wMsgD] [] =
      ((([wMsgD, wMsgD].take 1).foldl (processMsg id)
          { count := 0, fs := [], mapping := [], trace := [.message 1] }).count,
       (([wMsgD, wMsgD].take 1).foldl (processMsg id)
          { count := 0, fs := [], mapping := [], trace := [.message 1] }).mapping,
       (([wMsgD, wMsgD].take 1).foldl (processMsg id)
          { count := 0, fs := [], mapping := [], trace := [.message 1] }).fs,
       (([wMsgD, wMsgD].take 1).foldl (processMsg id)
          { count := 0, fs := [], mapping := [], trace := [.message 1] }).trace,
       1) ∧
    ((extract id 10 (some 1) [wMsgD, wMsgD] []).2.2.2.1.filter
      isMessageEv).length = 1 :=
  C5_limit_pagination id 10 1 [wMsgD, wMsgD] [] (by decide) (by decide)
    (by decide)

/-! ## C6: counting removals per attachment handle -/

theorem filter_beq_length_le_one {l : List Nat} (hnd : l.Nodup) (i : Nat) :
    (l.filter (fun j => j == i)).length ≤ 1 := by
  induction l with
  | nil => simp
  | cons j l ih =>
    rw [List.nodup_cons] at hnd
    rcases hnd with ⟨hj, hl⟩
    by_cases hji : j = i
    · subst hji
      have hnil : l.filter (fun k => k == j) = [] := by
        rw [List.filter_eq_nil_iff]
        intro k hk
        simp only [beq_iff_eq]
        intro hkj
        exact hj (hkj ▸ hk)
      simp [List.filter_cons, hnil]
    · have hbe : (j == i) = false := by simp [hji]
      simp only [List.filter_cons, hbe, cond_false]
      exact ih hl

theorem removeIds_nodup (atts : List Attachment) (hs : List String)
    (hhs : hs.Nodup) (hids : (atts.map Attachment.attId).Nodup) :
    (removeIds atts hs).Nodup := by
  refine List.Nodup.filterMap ?_ hhs
  intro h h' i hi hi'
  simp only [Option.mem_def, Option.map_eq_some'] at hi hi'
  rcases hi with ⟨a, ha, hai⟩
  rcases hi' with ⟨a', ha', hai'⟩
  obtain ⟨hma, hsa⟩ := attachByHash_mem ha
  obtain ⟨hma', hsa'⟩ := attachByHash_mem ha'
  have haa : a = a' :=
    List.inj_on_of_nodup_map hids hma hma' (hai.trans hai'.symm)
  rw [← hsa, ← hsa', haa]

theorem mem_ids_of_mem_removeIds {atts : List Attachment} {hs : List String}
    {i : Nat} (hmem : i ∈ removeIds atts hs) :
    i ∈ atts.map Attachment.attId := by
  simp only [removeIds, List.mem_filterMap] at hmem
  rcases hmem with ⟨h, _, hi⟩
  rcases hcase : attachByHash atts h with _ | a <;> rw [hcase] at hi
  · simp at hi
  · simp only [Option.map_some', Option.some.injEq] at hi
    subst hi
    exact List.mem_map_of_mem _ (attachByHash_mem hcase).1

theorem countRemoveOf_append (i : Nat) (t1 t2 : List SyncEvent) :
    countRemoveOf i (t1 ++ t2) = countRemoveOf i t1 + countRemoveOf i t2 := by
  simp [countRemoveOf, List.filter_append]

theorem countRemoveOf_removeTrace (i : Nat) (atts : List Attachment) :
    ∀ hs : List String,
      countRemoveOf i (removeTrace atts hs) =
        ((removeIds atts hs).filter (fun j => j == i)).length := by
  intro hs
  induction hs with
  | nil => rfl
  | cons h rest ih =>
    rcases hcase : attachByHash atts h with _ | a
    · simp only [removeTrace, removeIds, List.filterMap_cons, hcase,
        Option.map_none']
      exact ih
    · simp only [removeTrace, removeIds, List.filterMap_cons, hcase,
        Option.map_some']
      simp only [countRemoveOf, removeTrace, removeIds] at ih ⊢
      by_cases hai : a.attId = i <;> simp [hai, List.filter_cons, ih]

theorem countRemoveOf_groupTrace (i : Nat) (fetch : String → Message)
    (replace : Bool) (trash label : String)
    (subjects : List (String × String)) (g : String × List String) :
    countRemoveOf i (groupTrace fetch replace trash label subjects g) =
      ((removeIds (fetch g.1).attachments g.2).filter (fun j => j == i)).length := by
  simp only [groupTrace]
  rw [countRemoveOf_append, countRemoveOf_append, countRemoveOf_removeTrace]
  have htail : countRemoveOf i
      (if groupRemoved fetch g ≠ 0 then
        [SyncEvent.writeCb ((subjects.lookup g.1).getD ""),
         commitEvent replace trash label] else []) = 0 := by
    by_cases hnz : groupRemoved fetch g ≠ 0 <;>
      by_cases hr : replace <;>
      simp [hnz, hr, countRemoveOf, commitEvent]
  rw [htail]
  simp [countRemoveOf]

theorem countRemoveOf_syncTrace_zero (i : Nat) (fetch : String → Message)
    (replace : Bool) (trash label : String)
    (subjects : List (String × String)) :
    ∀ gs : List (String × List String),
      (∀ g ∈ gs, i ∉ (fetch g.1).attachments.map Attachment.attId) →
      countRemoveOf i (syncTrace fetch replace trash label subjects gs) = 0 := by
  intro gs
  induction gs with
  | nil => intro _; rfl
  | cons g rest ih =>
    intro hnot
    rw [syncTrace_cons, countRemoveOf_append, countRemoveOf_groupTrace]
    have hz : ((removeIds (fetch g.1).attachments g.2).filter
        (fun j => j == i)).length = 0 := by
      rw [List.length_eq_zero, List.filter_eq_nil_iff]
      intro j hj
      simp only [beq_iff_eq]
      intro hji
      exact hnot g (List.mem_cons_self _ _)
        (hji ▸ mem_ids_of_mem_removeIds hj)
    rw [hz, ih (fun g' hg' => hnot g' (List.mem_cons_of_mem _ hg'))]

theorem countRemoveOf_syncTrace_le_one (i : Nat) (fetch : String → Message)
    (replace : Bool) (trash label : String)
    (subjects : List (String × String)) :
    ∀ gs : List (String × List String),
      (gs.map Prod.fst).Nodup →
      (∀ g ∈ gs, g.2.Nodup) →
      (∀ g ∈ gs, ((fetch g.1).attachments.map Attachment.attId).Nodup) →
      (∀ g1 ∈ gs, ∀ g2 ∈ gs, g1.1 ≠ g2.1 →
        ∀ j, j ∈ (fetch g1.1).attachments.map Attachment.attId →
          j ∉ (fetch g2.1).attachments.map Attachment.attId) →
      countRemoveOf i (syncTrace fetch replace trash label subjects gs) ≤ 1 := by
  intro gs
  induction gs with
  | nil => intro _ _ _ _; simp [syncTrace, countRemoveOf]
  | cons g rest ih =>
    intro hkeys hhs hids hdisj
    rw [syncTrace_cons, countRemoveOf_append, countRemoveOf_groupTrace]
    have hg1 : ((removeIds (fetch g.1).attachments g.2).filter
        (fun j => j == i)).length ≤ 1 :=
      filter_beq_length_le_one
        (removeIds_nodup _ _ (hhs g (List.mem_cons_self _ _))
          (hids g (List.mem_cons_self _ _))) i
    rw [List.map_cons, List.nodup_cons] at hkeys
    by_cases hz : ((removeIds (fetch g.1).attachments g.2).filter
        (fun j => j == i)).length = 0
    · rw [hz]
      simpa using ih hkeys.2 (fun g' hg' => hhs g' (List.mem_cons_of_mem _ hg'))
        (fun g' hg' => hids g' (List.mem_cons_of_mem _ hg'))
        (fun g1 hg1 g2 hg2 => hdisj g1 (List.mem_cons_of_mem _ hg1) g2
          (List.mem_cons_of_mem _ hg2))
    · have hmem : i ∈ (fetch g.1).attachments.map Attachment.attId := by
        rcases List.length_pos_iff_exists_mem.mp (Nat.pos_of_ne_zero hz) with
          ⟨j, hj⟩
        rcases List.mem_filter.mp hj with ⟨hj1, hj2⟩
        simp only [beq_iff_eq] at hj2
        exact hj2 ▸ mem_ids_of_mem_removeIds hj1
      have hrest : countRemoveOf i
          (syncTrace fetch replace trash label subjects rest) = 0 := by
        apply countRemoveOf_syncTrace_zero
        intro g' hg'
        have hne : g.1 ≠ g'.1 := by
          intro hh
          exact hkeys.1 (hh ▸ List.mem_map_of_mem Prod.fst hg')
        exact hdisj g (List.mem_cons_self _ _) g'
          (List.mem_cons_of_mem _ hg') hne i hmem
      rw [hrest]
      omega

/-- C6 counterexample. The claim fails on the code: extracting a message
with two image attachments of identical content (hence equal content hash
`"hh"` but distinct handles 11 and 12), deleting both files, and running a
single `sync` issues `remove()` twice against the same attachment handle
(12, the one the hash dictionary retains), because the plan lists the shared
hash twice and each occurrence resolves to the same handle. -/
theorem C6_remove_twice_counterexample :
    countRemoveOf 12 (syncOutTrace (syncS (fun _ => wMsgD) [] "L"
      ⟨10, none, false, "Trash",
        (extract id 10 none [wMsgD] []).2.1, none⟩)) = 2 := by
  have hmap : (extract id 10 none [wMsgD] []).2.1 =
      [(("SD - x.jpg", 0), ("gd", "hh", "SD")),
       (("SD - y.jpg", 0), ("gd", "hh", "SD"))] := by
    simp [extract, extractLoop, processPage, processMsg, processAtt,
      unique_filename, isfile, maxSuffix, perPage, limitTruthy, limitPos,
      ATTACHMENT_MIMES, wMsgD]
  rw [hmap]
  rfl

/-- C6 amended. Within a single `sync` invocation, `remove()` is issued at
most once per attachment handle provided the pending hashes of each plan
group are distinct and the refetched messages' attachment handles are
distinct within a message and disjoint across distinct message ids; with
duplicate content hashes inside one message (or a repeated `sync` over the
cached plan) the same handle can receive `remove()` twice, as the
counterexample shows. -/
theorem C6_remove_at_most_once (fetch : String → Message) (fs : Fs)
    (label : String) (s : ExtractorState) (p : DelPlan) (a m : Nat)
    (tr : List SyncEvent) (s' : ExtractorState) (i : Nat)
    (hplan : s.plan = some p)
    (hkeys : (p.to_delete.map Prod.fst).Nodup)
    (hgh : ∀ g ∈ p.to_delete, g.2.Nodup)
    (hgids : ∀ g ∈ p.to_delete,
      ((fetch g.1).attachments.map Attachment.attId).Nodup)
    (hdisj : ∀ g1 ∈ p.to_delete, ∀ g2 ∈ p.to_delete, g1.1 ≠ g2.1 →
      ∀ j, j ∈ (fetch g1.1).attachments.map Attachment.attId →
        j ∉ (fetch g2.1).attachments.map Attachment.attId)
    (hok : syncS fetch fs label s = .ok (a, m, tr, s')) :
    countRemoveOf i tr ≤ 1 := by
  obtain ⟨_, _, htr, _⟩ := syncS_ok_spec fetch fs label s p a m tr s' hplan hok
  rw [htr]
  exact countRemoveOf_syncTrace_le_one i fetch s.replace s.trash_folder label
    p.to_delete_subjects p.to_delete hkeys hgh hgids hdisj

/-- Witness for the amended C6: in the one-message scenario with distinct
hashes, handle 1 receives at most one `remove()`. -/
theorem C6_remove_at_most_once_witness :
    countRemoveOf 1 wTraceE ≤ 1 :=
  C6_remove_at_most_once wFetchE [] "L" wStateE wPlanE 2 1 wTraceE wStateE 1
    rfl (by decide) (by decide) (by decide)
    (by
      intro g1 hg1 g2 hg2 hne j hj
      rw [show wPlanE.to_delete = [("gm", ["h1", "h2"])] from rfl,
        List.mem_singleton] at hg1 hg2
      exact absurd (by rw [hg1, hg2]) hne)
    rfl

/-! ## C7: a missing hash is a hard error for its group -/

/-- A group whose pending hashes contain one that does not resolve in the
refetched message makes the group loop raise: the hashes before the missing
one are removed, the missing one produces no remove event, and the events of
the groups already processed stay in the trace. -/
theorem syncGroups_missing (fetch : String → Message) (replace : Bool)
    (trash label : String) (subjects : List (String × String))
    (gid sbj : String) (hs1 hs2 : List String) (hbad : String)
    (rest : List (String × List String)) (nAtt nMsg : Nat)
    (tr : List SyncEvent)
    (hsbj : subjects.lookup gid = some sbj)
    (hfound1 : ∀ h ∈ hs1, (attachByHash (fetch gid).attachments h).isSome)
    (hmiss : attachByHash (fetch gid).attachments hbad = none) :
    syncGroups fetch replace trash label subjects
      ((gid, hs1 ++ hbad :: hs2) :: rest) nAtt nMsg tr =
      .error (tr ++ [.fetchCb sbj (hs1 ++ hbad :: hs2).length, .fetchMsg gid]
        ++ removeTrace (fetch gid).attachments hs1) := by
  simp only [syncGroups, hsbj]
  rw [removeLoop_missing _ hmiss hs2 hs1 0 _ hfound1]

/-- C7. During `sync`, a pending hash absent from the refetched message's
current attachment set is a hard error: `sync` raises (returns `error`
instead of a count), no removal is attempted for the missing hash (only the
hashes before it in that group produce remove events), and the groups
processed before the failing one keep their completed removals and commits
(their events are all in the trace, and the successful-removal and commit
counts over the error trace equal the earlier groups' totals plus the
failing group's partial removals). -/
theorem C7_missing_hash_aborts (fetch : String → Message) (fs : Fs)
    (label : String) (s : ExtractorState) (p : DelPlan)
    (pre post : List (String × List String)) (gid sbj : String)
    (hs1 hs2 : List String) (hbad : String)
    (hplan : s.plan = some p)
    (hsplit : p.to_delete = pre ++ (gid, hs1 ++ hbad :: hs2) :: post)
    (hsub_pre : ∀ g ∈ pre, (p.to_delete_subjects.lookup g.1).isSome)
    (hres_pre : ∀ g ∈ pre, ∀ h ∈ g.2,
      (attachByHash (fetch g.1).attachments h).isSome)
    (hsbj : p.to_delete_subjects.lookup gid = some sbj)
    (hfound1 : ∀ h ∈ hs1, (attachByHash (fetch gid).attachments h).isSome)
    (hmiss : attachByHash (fetch gid).attachments hbad = none) :
    syncS fetch fs label s = .error
      (syncTrace fetch s.replace s.trash_folder label p.to_delete_subjects pre
        ++ [.fetchCb sbj (hs1 ++ hbad :: hs2).length, .fetchMsg gid]
        ++ removeTrace (fetch gid).attachments hs1, s) ∧
    countSuccRemoves
      (syncTrace fetch s.replace s.trash_folder label p.to_delete_subjects pre
        ++ [.fetchCb sbj (hs1 ++ hbad :: hs2).length, .fetchMsg gid]
        ++ removeTrace (fetch gid).attachments hs1) =
      syncRemoved fetch pre +
        (hs1.filter (hashRemoved (fetch gid).attachments)).length ∧
    countCommits
      (syncTrace fetch s.replace s.trash_folder label p.to_delete_subjects pre
        ++ [.fetchCb sbj (hs1 ++ hbad :: hs2).length, .fetchMsg gid]
        ++ removeTrace (fetch gid).attachments hs1) =
      syncChanged fetch pre := by
  refine ⟨?_, ?_, ?_⟩
  · simp only [syncS, hplan, hsplit]
    rw [syncGroups_append_ok fetch s.replace s.trash_folder label
      p.to_delete_subjects pre ((gid, hs1 ++ hbad :: hs2) :: post) 0 0 []
      hsub_pre hres_pre]
    rw [syncGroups_missing fetch s.replace s.trash_folder label
      p.to_delete_subjects gid sbj hs1 hs2 hbad post _ _ _ hsbj hfound1 hmiss]
    simp [List.append_assoc]
  · rw [countSuccRemoves_append, countSuccRemoves_append,
      countSuccRemoves_syncTrace, countSuccRemoves_removeTrace]
    simp [countSuccRemoves, isSuccRemove]
  · rw [countCommits_append, countCommits_append, countCommits_syncTrace,
      countCommits_removeTrace]
    simp [countCommits, isCommit]

/-- Witness for C7: a plan with a first group that syncs fine and a second
group whose only pending hash `hX` is absent from the refetched message
makes `sync` raise after the first group's removal and commit. -/
theorem C7_missing_hash_aborts_witness :
    syncS wFetchA [] "L"
      ⟨10, none, false, "Trash", [],
        some ⟨[("g1", ["h1"]), ("g2", ["hX"])],
          [("g1", "S1"), ("g2", "S2")], 2⟩⟩ = .error
      (syncTrace wFetchA false "Trash" "L" [("g1", "S1"), ("g2", "S2")]
          [("g1", ["h1"])]
        ++ [.fetchCb "S2" ([] ++ "hX" :: []).length, .fetchMsg "g2"]
        ++ removeTrace (wFetchA "g2").attachments [],
       ⟨10, none, false, "Trash", [],
        some ⟨[("g1", ["h1"]), ("g2", ["hX"])],
          [("g1", "S1"), ("g2", "S2")], 2⟩⟩) ∧
    countSuccRemoves
      (syncTrace wFetchA false "Trash" "L" [("g1", "S1"), ("g2", "S2")]
          [("g1", ["h1"])]
        ++ [.fetchCb "S2" ([] ++ "hX" :: []).length, .fetchMsg "g2"]
        ++ removeTrace (wFetchA "g2").attachments []) =
      syncRemoved wFetchA [("g1", ["h1"])] +
        ([].filter (hashRemoved (wFetchA "g2").attachments)).length ∧
    countCommits
      (syncTrace wFetchA false "Trash" "L" [("g1", "S1"), ("g2", "S2")]
          [("g1", ["h1"])]
        ++ [.fetchCb "S2" ([] ++ "hX" :: []).length, .fetchMsg "g2"]
        ++ removeTrace (wFetchA "g2").attachments []) =
      syncChanged wFetchA [("g1", ["h1"])] :=
  C7_missing_hash_aborts wFetchA [] "L"
    ⟨10, none, false, "Trash", [],
      some ⟨[("g1", ["h1"]), ("g2", ["hX"])],
        [("g1", "S1"), ("g2", "S2")], 2⟩⟩
    ⟨[("g1", ["h1"]), ("g2", ["hX"])], [("g1", "S1"), ("g2", "S2")], 2⟩
    [("g1", ["h1"])] [] "g2" "S2" [] [] "hX"
    rfl rfl (by decide) (by decide) rfl (by simp) rfl

/-! ## C8: sync does not mutate the reconciliation state -/

/-- C8. `sync` reads but never mutates the reconciliation state: whenever a
deletion plan has been computed, the instance state after `sync` — whether
it returns normally or raises — is exactly the state before the call; in
particular the mapping, the plan's groups, the captured subjects and the
pending-deletion count are unchanged. -/
theorem C8_sync_frame (fetch : String → Message) (fs : Fs) (label : String)
    (s : ExtractorState) (p : DelPlan) (hplan : s.plan = some p) :
    syncOutState (syncS fetch fs label s) = s ∧
    (syncOutState (syncS fetch fs label s)).mapping = s.mapping ∧
    (syncOutState (syncS fetch fs label s)).plan = some p := by
  have h : syncOutState (syncS fetch fs label s) = s := by
    simp only [syncS, hplan]
    rcases hsg : syncGroups fetch s.replace s.trash_folder label
        p.to_delete_subjects p.to_delete 0 0 [] with t | x
    · rfl
    · rfl
  exact ⟨h, by rw [h], by rw [h, hplan]⟩

/-- Witness for C8: the two-message scenario state is untouched by `sync`. -/
theorem C8_sync_frame_witness :
    syncOutState (syncS wFetchA [] "L" wStateA) = wStateA ∧
    (syncOutState (syncS wFetchA [] "L" wStateA)).mapping = wStateA.mapping ∧
    (syncOutState (syncS wFetchA [] "L" wStateA)).plan = some wPlanA :=
  C8_sync_frame wFetchA [] "L" wStateA wPlanA rfl

/-! ## C9: lazy plan computation in sync -/

/-- C9. Calling `sync` with no plan computed behaves identically to calling
`check_deletions` and then `sync`; and when a plan is already cached, `sync`
does not recompute it — its behaviour does not depend on the filesystem
state at all, the cached plan is reused. -/
theorem C9_sync_lazy_detection (fetch : String → Message) (fs : Fs)
    (label : String) :
    (∀ s : ExtractorState, s.plan = none →
      syncS fetch fs label s = syncS fetch fs label (check_deletionsS fs s).2) ∧
    (∀ (s : ExtractorState) (p : DelPlan) (fs1 fs2 : Fs), s.plan = some p →
      syncS fetch fs1 label s = syncS fetch fs2 label s) := by
  constructor
  · intro s hplan
    simp only [syncS, check_deletionsS, hplan]
  · intro s p fs1 fs2 hplan
    simp only [syncS, hplan]

/-- Witness for C9: a state with one mapping entry whose file is missing and
no computed plan syncs exactly like detect-then-sync, and a state with a
cached plan syncs identically under two different filesystem states. -/
theorem C9_sync_lazy_detection_witness :
    (syncS wFetchA [] "L" ⟨10, none, false, "Trash",
        [(("f", 0), ("g1", "h1", "S1"))], none⟩ =
      syncS wFetchA [] "L"
        (check_deletionsS [] ⟨10, none, false, "Trash",
          [(("f", 0), ("g1", "h1", "S1"))], none⟩).2) ∧
    syncS wFetchA [(("f", 0), "x")] "L" wStateA = syncS wFetchA [] "L" wStateA :=
  ⟨(C9_sync_lazy_detection wFetchA [] "L").1 _ rfl,
   (C9_sync_lazy_detection wFetchA [] "L").2 wStateA wPlanA _ _ rfl⟩

end GmailExtract
